import Mathlib

/-!
Verification of the streamingfast/atm two-tier on-disk cache.

Shallow embedding of the Go sources:
  * `Heap` and its methods mirror `heap.go` (the variant carrying
    `sizeInBytes`/`maxSizeInBytes`); the generic sift routines `upGo`,
    `downLoop`/`downGo`, `heapInit`, `heapPush`, `heapPop`, `heapRemoveAt`
    mirror Go's `container/heap` package, which the source calls.
  * `Cache`, `purgeWithLock`, `demoteLoop` (the body of the `for _, evicted`
    loop), `Cache.write`, `Cache.Write` and `Cache.Read` mirror `cache.go`.
  * `formatDate`/`parseDate`/`fileName`/`parseFileName` mirror the filename
    codec: `toFilePath` plus the decoding half of `cacheItemFromFile`,
    including the behaviour of Go's `time.Format`/`time.Parse` on the fixed
    layout `"20060102T1504059999"` (in which the trailing `9999` is a literal,
    not a fractional-second directive, because it is not preceded by a dot).

Modelling conventions:
  * `time.Time` values are modelled by their component view `DateTime`
    (a normalized instant in a fixed zone); `Before` is chronological
    (lexicographic on components).
  * Go slices become `List`, `int` becomes `Int` (no overflow is relevant at
    cache sizes), byte payloads become `List Nat`.
  * The Go code shares `*CacheItem` pointers between the index and the heaps;
    the in-place mutation of `insertedAt` on the duplicate-key path is
    modelled by rewriting every holder of the (structurally identical) item.
  * `nil`-pointer dereference panics are modelled by `Option`: a function
    that can panic returns `none` in exactly the panicking executions.
  * Asynchronous backend deletions are modelled by accumulating the scheduled
    file paths; the storage backend is a parameter (`CacheBackend`) whose
    write/read results the cache propagates.
-/

set_option maxHeartbeats 1000000

namespace Atm

/-- Component view of a Go `time.Time` instant (fixed zone, normalized
fields); `nanos` carries the sub-second part. -/
structure DateTime where
  year : Nat
  month : Nat
  day : Nat
  hour : Nat
  minute : Nat
  second : Nat
  nanos : Nat
deriving Repr, DecidableEq, Inhabited

/-- `time.Time.Before`: strict chronological order of instants, i.e.
lexicographic order on the normalized components. -/
def DateTime.Before (a b : DateTime) : Bool :=
  if a.year ≠ b.year then decide (a.year < b.year)
  else if a.month ≠ b.month then decide (a.month < b.month)
  else if a.day ≠ b.day then decide (a.day < b.day)
  else if a.hour ≠ b.hour then decide (a.hour < b.hour)
  else if a.minute ≠ b.minute then decide (a.minute < b.minute)
  else if a.second ≠ b.second then decide (a.second < b.second)
  else decide (a.nanos < b.nanos)

/-- `CacheItem` from cache.go. -/
structure CacheItem where
  key : String
  size : Int
  itemDate : DateTime
  insertedAt : DateTime
  filePath : String
deriving Repr, DecidableEq, Inhabited

/-- `newCacheItem` from cache.go. -/
def newCacheItem (key filePath : String) (size : Int) (itemDate insertedAt : DateTime) :
    CacheItem :=
  { key := key, filePath := filePath, size := size, itemDate := itemDate,
    insertedAt := insertedAt }

/-- `ByAge` comparator from heap.go. -/
def ByAge (h : List CacheItem) (i j : Nat) : Bool :=
  ((h.getD i default).itemDate).Before ((h.getD j default).itemDate)

/-- `ByInsertionTime` comparator from heap.go. -/
def ByInsertionTime (h : List CacheItem) (i j : Nat) : Bool :=
  ((h.getD i default).insertedAt).Before ((h.getD j default).insertedAt)

/-- `Heap` from heap.go: backing array, byte accounting and comparator. -/
structure Heap where
  items : List CacheItem
  sizeInBytes : Int
  maxSizeInBytes : Int
  less : List CacheItem → Nat → Nat → Bool

/-- `NewHeap` from heap.go (`sizeInBytes` starts at its zero value). -/
def NewHeap (less : List CacheItem → Nat → Nat → Bool) (maxSizeInByte : Int) : Heap :=
  { items := [], sizeInBytes := 0, maxSizeInBytes := maxSizeInByte, less := less }

/-- `Heap.Len`. -/
def Heap.Len (h : Heap) : Nat := h.items.length

/-- `Heap.Less`: applies the stored comparator to the backing array. -/
def Heap.Less (h : Heap) (i j : Nat) : Bool := h.less h.items i j

/-- `Heap.Swap`: exchanges two slots; a no-op on an empty backing array
(the guard the Go code carries so `container/heap.Pop` works when empty). -/
def Heap.Swap (h : Heap) (i j : Nat) : Heap :=
  if h.items.length = 0 then h
  else { h with items := (h.items.set i (h.items.getD j default)).set j (h.items.getD i default) }

/-- `Heap.FreeSpace() = maxSizeInBytes - sizeInBytes`. -/
def Heap.FreeSpace (h : Heap) : Int := h.maxSizeInBytes - h.sizeInBytes

/-- The heap's own `Push` method (the `heap.Interface` one): append and add
the item's size. -/
def Heap.PushRaw (h : Heap) (x : CacheItem) : Heap :=
  { h with sizeInBytes := h.sizeInBytes + x.size, items := h.items ++ [x] }

/-- The heap's own `Pop` method (the `heap.Interface` one): remove the tail
element and subtract its size; `none` if empty. -/
def Heap.PopRaw (h : Heap) : Heap × Option CacheItem :=
  match h.items.getLast? with
  | none => (h, none)
  | some ci => ({ h with items := h.items.dropLast, sizeInBytes := h.sizeInBytes - ci.size },
                some ci)

/-- `Heap.Peek`: the tail of the backing array, without removal; `none` if
empty. -/
def Heap.Peek (h : Heap) : Option CacheItem :=
  if h.items.length = 0 then none
  else h.items.getLast?

/-- `container/heap`'s `up` (sift-up) loop. -/
def upGo (h : Heap) (j : Nat) : Heap :=
  let i := (j - 1) / 2
  if i = j ∨ h.Less j i = false then h
  else upGo (h.Swap i j) i
termination_by j
decreasing_by
  rename_i hcond
  push_neg at hcond
  have hij : (j - 1) / 2 ≠ j := hcond.1
  show (j - 1) / 2 < j
  omega

/-- The child index chosen by `container/heap`'s `down`: the left child
`2*i+1`, or the right child when it exists (`j2 < n`) and compares less. -/
def downChild (h : Heap) (i : Nat) (n : Int) : Nat :=
  if ((2 * i + 1 + 1 : Nat) : Int) < n ∧ h.Less (2 * i + 1 + 1) (2 * i + 1) then 2 * i + 1 + 1
  else 2 * i + 1

/-- `container/heap`'s `down` (sift-down) loop; returns the final index. -/
def downLoop (h : Heap) (i : Nat) (n : Int) : Heap × Nat :=
  if ((2 * i + 1 : Nat) : Int) ≥ n then (h, i)
  else
    let j := downChild h i n
    if h.Less j i = false then (h, i)
    else downLoop (h.Swap i j) j n
termination_by n.toNat - i
decreasing_by
  rename_i hlt _
  push_neg at hlt
  show n.toNat - downChild h i n < n.toNat - i
  have h2 : 2 * i + 1 < n.toNat := by omega
  have h3 : 2 * i + 1 ≤ downChild h i n := by
    unfold downChild
    split <;> omega
  omega

/-- `container/heap`'s `down`: runs the loop and reports whether the element
moved. -/
def downGo (h : Heap) (i0 : Nat) (n : Int) : Heap × Bool :=
  let r := downLoop h i0 n
  (r.1, decide (i0 < r.2))

/-- `container/heap.Push`: append via the interface `Push`, then sift up from
the tail. -/
def heapPush (h : Heap) (x : CacheItem) : Heap :=
  let h1 := h.PushRaw x
  upGo h1 (h1.Len - 1)

/-- `container/heap.Pop`: swap root and tail, sift down, then the interface
`Pop` (which removes the tail and fixes the byte count). -/
def heapPop (h : Heap) : Heap × Option CacheItem :=
  let n : Int := (h.Len : Int) - 1
  let h1 := h.Swap 0 (h.Len - 1)
  ((downGo h1 0 n).1).PopRaw

/-- `container/heap.Remove` at index `i`. -/
def heapRemoveAt (h : Heap) (i : Nat) : Heap × Option CacheItem :=
  let n : Int := (h.Len : Int) - 1
  if n ≠ (i : Int) then
    let h1 := h.Swap i n.toNat
    let d := downGo h1 i n
    let h2 := if d.2 then d.1 else upGo d.1 i
    h2.PopRaw
  else h.PopRaw

/-- The index of the last item whose key matches, as computed by the linear
scan in `Heap.Remove` (the loop does not break, so the last hit wins). -/
def findLastIdx (items : List CacheItem) (key : String) : Option Nat :=
  items.enum.foldl (fun acc p => if p.2.key = key then some p.1 else acc) none

/-- `Heap.Remove(key)` from heap.go: linear scan, `container/heap.Remove`,
then subtract the removed item's size (note: the interface `Pop` inside
`container/heap.Remove` has already subtracted it once). -/
def Heap.Remove (h : Heap) (key : String) : Heap × Option CacheItem :=
  match findLastIdx h.items key with
  | none => (h, none)
  | some i =>
    let r := heapRemoveAt h i
    match r.2 with
    | none => (r.1, none)
    | some cacheItem =>
      ({ r.1 with sizeInBytes := r.1.sizeInBytes - cacheItem.size }, some cacheItem)

/-- The countdown loop of `container/heap.Init`. -/
def heapInitLoop (h : Heap) (n : Nat) (i : Int) : Heap :=
  if i < 0 then h
  else heapInitLoop (downGo h i.toNat (n : Int)).1 n (i - 1)
termination_by (i + 1).toNat
decreasing_by
  rename_i hge
  push_neg at hge
  omega

/-- `container/heap.Init`. -/
def heapInit (h : Heap) : Heap :=
  heapInitLoop h h.Len ((h.Len : Int) / 2 - 1)

/-! ### Permutation and bookkeeping lemmas for the heap primitives -/

theorem cons_set_perm {α : Type} (d x : α) :
    ∀ (xs : List α) (m : Nat), m < xs.length →
      (xs.getD m d :: xs.set m x).Perm (x :: xs)
  | [], m, hm => by simp at hm
  | y :: ys, 0, _ => by
    simpa using List.Perm.swap x y ys
  | y :: ys, m + 1, hm => by
    have hm' : m < ys.length := by simpa using hm
    have ih := cons_set_perm d x ys m hm'
    exact ((List.Perm.swap y (ys.getD m d) (ys.set m x)).trans
      (List.Perm.cons y ih)).trans (List.Perm.swap x y ys)

theorem set_getD_self {α : Type} (d : α) (l : List α) (i : Nat) (hi : i < l.length) :
    l.set i (l.getD i d) = l := by
  rw [List.getD_eq_getElem l d hi]
  apply List.ext_getElem
  · simp
  · intro n h1 h2
    rw [List.getElem_set]
    split
    · simp_all
    · rfl

theorem swap_list_perm {α : Type} (d : α) (l : List α) (i j : Nat)
    (hi : i < l.length) (hj : j < l.length) :
    ((l.set i (l.getD j d)).set j (l.getD i d)).Perm l := by
  induction l generalizing i j with
  | nil => simp at hi
  | cons x xs ih =>
    cases i with
    | zero =>
      cases j with
      | zero => simp [set_getD_self]
      | succ m =>
        have hm : m < xs.length := by simpa using hj
        simpa using cons_set_perm d x xs m hm
    | succ n =>
      cases j with
      | zero =>
        have hn : n < xs.length := by simpa using hi
        simpa using cons_set_perm d x xs n hn
      | succ m =>
        have hn : n < xs.length := by simpa using hi
        have hm : m < xs.length := by simpa using hj
        simpa using List.Perm.cons x (ih n m hn hm)

theorem Swap_sizeInBytes (h : Heap) (i j : Nat) :
    (h.Swap i j).sizeInBytes = h.sizeInBytes := by
  unfold Heap.Swap; split <;> rfl

theorem Swap_maxSizeInBytes (h : Heap) (i j : Nat) :
    (h.Swap i j).maxSizeInBytes = h.maxSizeInBytes := by
  unfold Heap.Swap; split <;> rfl

theorem Swap_less (h : Heap) (i j : Nat) : (h.Swap i j).less = h.less := by
  unfold Heap.Swap; split <;> rfl

theorem Swap_length (h : Heap) (i j : Nat) :
    (h.Swap i j).items.length = h.items.length := by
  unfold Heap.Swap; split <;> simp

theorem Swap_perm (h : Heap) (i j : Nat) (hi : i < h.items.length)
    (hj : j < h.items.length) : (h.Swap i j).items.Perm h.items := by
  unfold Heap.Swap
  split
  · exact List.Perm.refl _
  · exact swap_list_perm default h.items i j hi hj

theorem upGo_fields (h : Heap) (j : Nat) :
    (upGo h j).sizeInBytes = h.sizeInBytes ∧
    (upGo h j).maxSizeInBytes = h.maxSizeInBytes ∧
    (upGo h j).less = h.less ∧
    (upGo h j).items.length = h.items.length := by
  induction h, j using upGo.induct with
  | case1 h j i hstop =>
    rw [upGo]
    split
    · exact ⟨rfl, rfl, rfl, rfl⟩
    · rename_i hc
      exact absurd hstop hc
  | case2 h j i hstop ih =>
    rw [upGo]
    split
    · rename_i hc
      exact absurd hc hstop
    · exact ⟨by rw [ih.1, Swap_sizeInBytes], by rw [ih.2.1, Swap_maxSizeInBytes],
        by rw [ih.2.2.1, Swap_less], by rw [ih.2.2.2, Swap_length]⟩

theorem upGo_perm (h : Heap) (j : Nat) (hj : j < h.items.length) :
    (upGo h j).items.Perm h.items := by
  induction h, j using upGo.induct with
  | case1 h j i hstop =>
    rw [upGo]
    split
    · exact List.Perm.refl _
    · rename_i hc
      exact absurd hstop hc
  | case2 h j i hstop ih =>
    rw [upGo]
    split
    · rename_i hc
      exact absurd hc hstop
    · have hij : i ≠ j := fun he => hstop (Or.inl he)
      have hival : i = (j - 1) / 2 := rfl
      have hi : i < h.items.length := by omega
      have hlen : (h.Swap i j).items.length = h.items.length := Swap_length ..
      exact (ih (by omega)).trans (Swap_perm h i j hi hj)

theorem downChild_lt (h : Heap) (i : Nat) (n : Int)
    (hlt : ((2 * i + 1 : Nat) : Int) < n) : (downChild h i n : Int) < n := by
  unfold downChild
  split
  · rename_i hc
    exact hc.1
  · exact hlt

theorem downChild_gt (h : Heap) (i : Nat) (n : Int) : i < downChild h i n := by
  unfold downChild
  split <;> omega

theorem downLoop_fields (h : Heap) (i : Nat) (n : Int) :
    (downLoop h i n).1.sizeInBytes = h.sizeInBytes ∧
    (downLoop h i n).1.maxSizeInBytes = h.maxSizeInBytes ∧
    (downLoop h i n).1.less = h.less ∧
    (downLoop h i n).1.items.length = h.items.length := by
  induction h, i, n using downLoop.induct with
  | case1 h i n hge =>
    rw [downLoop, if_pos hge]
    exact ⟨rfl, rfl, rfl, rfl⟩
  | case2 h i n hlt j hless =>
    rw [downLoop, if_neg hlt]
    show ((if h.Less j i = false then (h, i) else downLoop (h.Swap i j) j n)).1.sizeInBytes
        = h.sizeInBytes ∧ ((if h.Less j i = false then (h, i)
          else downLoop (h.Swap i j) j n)).1.maxSizeInBytes = h.maxSizeInBytes ∧
        ((if h.Less j i = false then (h, i)
          else downLoop (h.Swap i j) j n)).1.less = h.less ∧
        ((if h.Less j i = false then (h, i)
          else downLoop (h.Swap i j) j n)).1.items.length = h.items.length
    rw [if_pos hless]
    exact ⟨rfl, rfl, rfl, rfl⟩
  | case3 h i n hlt j hless ih =>
    rw [downLoop, if_neg hlt]
    show ((if h.Less j i = false then (h, i) else downLoop (h.Swap i j) j n)).1.sizeInBytes
        = h.sizeInBytes ∧ ((if h.Less j i = false then (h, i)
          else downLoop (h.Swap i j) j n)).1.maxSizeInBytes = h.maxSizeInBytes ∧
        ((if h.Less j i = false then (h, i)
          else downLoop (h.Swap i j) j n)).1.less = h.less ∧
        ((if h.Less j i = false then (h, i)
          else downLoop (h.Swap i j) j n)).1.items.length = h.items.length
    rw [if_neg hless]
    exact ⟨ih.1.trans (Swap_sizeInBytes h i j), ih.2.1.trans (Swap_maxSizeInBytes h i j),
      ih.2.2.1.trans (Swap_less h i j), ih.2.2.2.trans (Swap_length h i j)⟩

theorem downLoop_perm (h : Heap) (i : Nat) (n : Int)
    (hn : n ≤ (h.items.length : Int)) : (downLoop h i n).1.items.Perm h.items := by
  induction h, i, n using downLoop.induct with
  | case1 h i n hge =>
    rw [downLoop, if_pos hge]
  | case2 h i n hlt j hless =>
    rw [downLoop, if_neg hlt]
    show ((if h.Less j i = false then (h, i) else downLoop (h.Swap i j) j n)).1.items.Perm
        h.items
    rw [if_pos hless]
  | case3 h i n hlt j hless ih =>
    rw [downLoop, if_neg hlt]
    show ((if h.Less j i = false then (h, i) else downLoop (h.Swap i j) j n)).1.items.Perm
        h.items
    rw [if_neg hless]
    push_neg at hlt
    have hjv : j = downChild h i n := rfl
    have hjlt : (j : Int) < n := hjv ▸ downChild_lt h i n hlt
    have hjlen : j < h.items.length := by omega
    have hilen : i < h.items.length := by omega
    have hlen : (h.Swap i j).items.length = h.items.length := Swap_length ..
    exact (ih (by omega)).trans (Swap_perm h i j hilen hjlen)

theorem PopRaw_none_iff (h : Heap) : (h.PopRaw).2 = none ↔ h.items = [] := by
  unfold Heap.PopRaw
  cases hl : h.items.getLast? with
  | none => simpa using hl
  | some ci =>
    simp only []
    constructor
    · intro hc
      simp at hc
    · intro he
      rw [he] at hl
      simp at hl

theorem PopRaw_some (h : Heap) (ci : CacheItem) (hc : (h.PopRaw).2 = some ci) :
    h.items = (h.PopRaw).1.items ++ [ci] ∧
    (h.PopRaw).1.sizeInBytes = h.sizeInBytes - ci.size ∧
    (h.PopRaw).1.maxSizeInBytes = h.maxSizeInBytes ∧
    (h.PopRaw).1.less = h.less := by
  unfold Heap.PopRaw at hc ⊢
  cases hl : h.items.getLast? with
  | none => rw [hl] at hc; simp at hc
  | some x =>
    rw [hl] at hc
    simp only [Option.some.injEq] at hc
    subst hc
    refine ⟨?_, rfl, rfl, rfl⟩
    have hne : h.items ≠ [] := by
      intro he
      rw [he] at hl
      simp at hl
    have := List.dropLast_append_getLast hne
    rw [List.getLast?_eq_getLast h.items hne] at hl
    simp only [Option.some.injEq] at hl
    rw [hl] at this
    exact this.symm

theorem heapPush_spec (h : Heap) (x : CacheItem) :
    (heapPush h x).items.Perm (x :: h.items) ∧
    (heapPush h x).sizeInBytes = h.sizeInBytes + x.size ∧
    (heapPush h x).maxSizeInBytes = h.maxSizeInBytes ∧
    (heapPush h x).less = h.less := by
  unfold heapPush Heap.PushRaw
  have hlen : (h.items ++ [x]).length = h.items.length + 1 := by simp
  have hfields := upGo_fields
    { h with sizeInBytes := h.sizeInBytes + x.size, items := h.items ++ [x] }
    (({ h with sizeInBytes := h.sizeInBytes + x.size, items := h.items ++ [x] } : Heap).Len - 1)
  refine ⟨?_, hfields.1, hfields.2.1, hfields.2.2.1⟩
  have hperm := upGo_perm
    { h with sizeInBytes := h.sizeInBytes + x.size, items := h.items ++ [x] }
    (({ h with sizeInBytes := h.sizeInBytes + x.size, items := h.items ++ [x] } : Heap).Len - 1)
    (by simp [Heap.Len])
  exact hperm.trans (List.perm_append_singleton x h.items)

theorem heapPop_empty (h : Heap) (he : h.items = []) : heapPop h = (h, none) := by
  have hswap : h.Swap 0 (h.Len - 1) = h := by
    unfold Heap.Swap
    rw [if_pos (by simp [he])]
  have hn : ((2 * 0 + 1 : Nat) : Int) ≥ (h.Len : Int) - 1 := by
    simp [Heap.Len, he]
  show ((downLoop (h.Swap 0 (h.Len - 1)) 0 ((h.Len : Int) - 1)).1).PopRaw = (h, none)
  rw [hswap, downLoop.eq_def, if_pos hn]
  simp [Heap.PopRaw, he]

theorem heapPop_some (h : Heap) (hne : h.items ≠ []) :
    ∃ ci h2, heapPop h = (h2, some ci) ∧
      h.items.Perm (ci :: h2.items) ∧
      h2.sizeInBytes = h.sizeInBytes - ci.size ∧
      h2.maxSizeInBytes = h.maxSizeInBytes ∧
      h2.less = h.less ∧
      h2.items.length + 1 = h.items.length := by
  have hlpos : 0 < h.items.length := List.length_pos.2 hne
  set h1 := h.Swap 0 (h.Len - 1) with hh1
  have h1len : h1.items.length = h.items.length := Swap_length ..
  have h1perm : h1.items.Perm h.items :=
    Swap_perm h 0 (h.Len - 1) hlpos (by unfold Heap.Len; omega)
  have h1size : h1.sizeInBytes = h.sizeInBytes := Swap_sizeInBytes ..
  have h1max : h1.maxSizeInBytes = h.maxSizeInBytes := Swap_maxSizeInBytes ..
  have h1less : h1.less = h.less := Swap_less ..
  set hd := (downLoop h1 0 ((h.Len : Int) - 1)).1 with hhd
  have hdlen : hd.items.length = h1.items.length := (downLoop_fields h1 0 _).2.2.2
  have hdperm : hd.items.Perm h1.items :=
    downLoop_perm h1 0 ((h.Len : Int) - 1) (by rw [h1len]; unfold Heap.Len; omega)
  have hdsize : hd.sizeInBytes = h.sizeInBytes := ((downLoop_fields h1 0 _).1).trans h1size
  have hdmax : hd.maxSizeInBytes = h.maxSizeInBytes :=
    ((downLoop_fields h1 0 _).2.1).trans h1max
  have hdless : hd.less = h.less := ((downLoop_fields h1 0 _).2.2.1).trans h1less
  have hdne : hd.items ≠ [] := by
    intro he
    rw [he] at hdlen
    simp [h1len] at hdlen
    exact hne (List.length_eq_zero.1 hdlen.symm)
  have hpop : heapPop h = hd.PopRaw := by
    unfold heapPop downGo
    rfl
  cases hc : (hd.PopRaw).2 with
  | none => exact absurd ((PopRaw_none_iff hd).1 hc) hdne
  | some ci =>
    obtain ⟨hitems, hsize, hmax, hless⟩ := PopRaw_some hd ci hc
    refine ⟨ci, (hd.PopRaw).1, ?_, ?_, ?_, ?_, ?_, ?_⟩
    · rw [hpop]
      exact Prod.ext rfl hc
    · have : hd.items.Perm (ci :: (hd.PopRaw).1.items) := by
        rw [hitems]
        exact List.perm_append_singleton ci _
      exact ((hdperm.trans h1perm).symm).trans this
    · rw [hsize, hdsize]
    · rw [hmax, hdmax]
    · rw [hless, hdless]
    · have : hd.items.length = (hd.PopRaw).1.items.length + 1 := by
        rw [hitems]
        simp
      omega

theorem heapPop_some_length (h : Heap) (ci : CacheItem)
    (hc : (heapPop h).2 = some ci) : (heapPop h).1.items.length < h.items.length := by
  by_cases hne : h.items = []
  · rw [heapPop_empty h hne] at hc
    simp at hc
  · obtain ⟨ci2, h2, heq, _, _, _, _, hlen⟩ := heapPop_some h hne
    rw [heq]
    show h2.items.length < h.items.length
    omega

/-! ### The index (a Go `map[string]*CacheItem`) and the storage backend -/

/-- The cache's `index`, modelled as an association list with the usual map
operations (the code never iterates over it, so ordering is immaterial). -/
abbrev Index := List (String × CacheItem)

/-- Map lookup `c.index[key]`. -/
def idxLookup (ix : Index) (k : String) : Option CacheItem :=
  (ix.find? (fun p => decide (p.1 = k))).map (fun p => p.2)

/-- Map delete `delete(c.index, key)`. -/
def idxErase (ix : Index) (k : String) : Index :=
  ix.filter (fun p => decide (p.1 ≠ k))

/-- Map store `c.index[key] = v` (canonical model: the new binding shadows
and supersedes any previous one; only lookup/delete are observable). -/
def idxInsert (ix : Index) (k : String) (v : CacheItem) : Index :=
  (k, v) :: idxErase ix k

/-- The `CacheIO` collaborator (write/read of a path-addressed blob; the
delete results are ignored by the cache, so only write and read responses
are modelled). `none`/the second component `none` mean success. -/
structure CacheBackend where
  writeFn : String → List Nat → Option String
  readFn : String → List Nat × Option String

/-- `Cache` from cache.go (the mutex and logger are concurrency/observability
artefacts with no effect on the state). -/
structure Cache where
  basePath : String
  index : Index
  recentEntryHeap : Heap
  ageHeap : Heap

/-- `NewCache`: empty index, a `ByInsertionTime` heap bounded by
`maxRecentEntryBytes`, a `ByAge` heap bounded by `maxEntryByAgeBytes`, then
`heap.Init` on both. -/
def NewCache (basePath : String) (maxRecentEntryBytes maxEntryByAgeBytes : Int) : Cache :=
  let c : Cache :=
    { basePath := basePath, index := [],
      recentEntryHeap := NewHeap ByInsertionTime maxRecentEntryBytes,
      ageHeap := NewHeap ByAge maxEntryByAgeBytes }
  { c with ageHeap := heapInit c.ageHeap, recentEntryHeap := heapInit c.recentEntryHeap }

/-- `Cache.purgeWithLock`: pop from `h` until `FreeSpace() ≥ neededSpace` or
`Pop` returns nothing; returns the heap and the evicted items in pop order. -/
def purgeWithLock (h : Heap) (neededSpace : Int) : Heap × List CacheItem :=
  if h.FreeSpace ≥ neededSpace then (h, [])
  else
    let r := heapPop h
    match hr : r.2 with
    | none => (r.1, [])
    | some evicted =>
      let rest := purgeWithLock r.1 neededSpace
      (rest.1, evicted :: rest.2)
termination_by h.items.length
decreasing_by
  exact heapPop_some_length h evicted hr

/-- The body of `Cache.write`'s `for _, evicted := range evictedCacheItems`
loop: demote each candidate into the aged heap, cascading an aged purge or
dropping the candidate; `none` models the nil-`Peek` dereference panic.
Accumulates the scheduled asynchronous deletions. -/
def demoteLoop (aged : Heap) (ix : Index) (needed : Int) (evicted : List CacheItem)
    (deletes : List String) : Option (Heap × Index × List String) :=
  match evicted with
  | [] => some (aged, ix, deletes)
  | e :: rest =>
    if aged.FreeSpace ≥ e.size then
      demoteLoop (heapPush aged e) ix needed rest deletes
    else
      match aged.Peek with
      | none => none
      | some peek =>
        if peek.itemDate.Before e.itemDate then
          let pr := purgeWithLock aged needed
          demoteLoop (heapPush pr.1 e)
            (pr.2.foldl (fun a it => idxErase a it.key) ix) needed rest
            (deletes ++ pr.2.map (fun it => it.filePath))
        else
          demoteLoop aged (idxErase ix e.key) needed rest (deletes ++ [e.filePath])

/-- The observable outcome of one `write` call: the new cache state, the
returned `(item, error)` pair, the backend writes performed and the backend
deletions scheduled. -/
structure WriteRes where
  cache : Cache
  ret : Except String CacheItem
  wrote : List (String × List Nat)
  deletes : List String

/-- `Cache.write` (the lower-case internal method). `none` models the panic
of the demotion loop; otherwise the duplicate-key refresh, or purge of
`recent`, demotion cascade, optional backend write, and install. -/
def Cache.write (c : Cache) (bk : CacheBackend) (cacheItem : CacheItem) (data : List Nat)
    (skipWriteToFile : Bool) : Option WriteRes :=
  match idxLookup c.index cacheItem.key with
  | some item =>
    some { cache := { c with
             index := idxInsert c.index cacheItem.key { item with insertedAt := cacheItem.insertedAt },
             recentEntryHeap := { c.recentEntryHeap with
               items := c.recentEntryHeap.items.map
                 (fun it => if it = item then { item with insertedAt := cacheItem.insertedAt } else it) },
             ageHeap := { c.ageHeap with
               items := c.ageHeap.items.map
                 (fun it => if it = item then { item with insertedAt := cacheItem.insertedAt } else it) } },
           ret := Except.ok { item with insertedAt := cacheItem.insertedAt },
           wrote := [], deletes := [] }
  | none =>
    let pr := purgeWithLock c.recentEntryHeap (data.length : Int)
    match demoteLoop c.ageHeap c.index (data.length : Int) pr.2 [] with
    | none => none
    | some (aged2, ix2, dels) =>
      if skipWriteToFile then
        some { cache := ⟨c.basePath, idxInsert ix2 cacheItem.key cacheItem,
                 heapPush pr.1 cacheItem, aged2⟩,
               ret := Except.ok cacheItem, wrote := [], deletes := dels }
      else
        match bk.writeFn cacheItem.filePath data with
        | some err =>
          some { cache := ⟨c.basePath, ix2, pr.1, aged2⟩,
                 ret := Except.error ("writing file: " ++ err),
                 wrote := [(cacheItem.filePath, data)], deletes := dels }
        | none =>
          some { cache := ⟨c.basePath, idxInsert ix2 cacheItem.key cacheItem,
                 heapPush pr.1 cacheItem, aged2⟩,
                 ret := Except.ok cacheItem,
                 wrote := [(cacheItem.filePath, data)], deletes := dels }

/-- `Cache.Read`: shared-lock lookup; on a hit, the backend read of the
stored `filePath` is returned with `found = true`; on a miss,
`(nil, false, nil)`. The cache state is returned unchanged (the body only
reads it). -/
def Cache.Read (c : Cache) (bk : CacheBackend) (key : String) :
    Cache × (List Nat × Bool × Option String) :=
  match idxLookup c.index key with
  | none => (c, ([], false, none))
  | some cacheItem =>
    let r := bk.readFn cacheItem.filePath
    (c, (r.1, true, r.2))

/-! ### Behaviour of the eviction loop -/

/-- Total size in bytes of a list of items. -/
def sumSizes (l : List CacheItem) : Int := (l.map (fun it => it.size)).sum

theorem purgeWithLock_no_need (h : Heap) (n : Int) (hfree : h.FreeSpace ≥ n) :
    purgeWithLock h n = (h, []) := by
  rw [purgeWithLock.eq_def, if_pos hfree]

theorem purgeWithLock_pop_none (h : Heap) (n : Int) (hfree : ¬ h.FreeSpace ≥ n)
    (hr : (heapPop h).2 = none) : purgeWithLock h n = ((heapPop h).1, []) := by
  have hp : heapPop h = ((heapPop h).1, none) := Prod.ext rfl hr
  rw [purgeWithLock.eq_def, if_neg hfree]
  conv_lhs => rw [hp]

theorem purgeWithLock_pop_some (h : Heap) (n : Int) (ci : CacheItem)
    (hfree : ¬ h.FreeSpace ≥ n) (hr : (heapPop h).2 = some ci) :
    purgeWithLock h n =
      ((purgeWithLock (heapPop h).1 n).1, ci :: (purgeWithLock (heapPop h).1 n).2) := by
  have hp : heapPop h = ((heapPop h).1, some ci) := Prod.ext rfl hr
  rw [purgeWithLock.eq_def, if_neg hfree]
  conv_lhs => rw [hp]

theorem purgeWithLock_spec_aux (L : Nat) (h : Heap) (n : Int) (hL : h.items.length ≤ L) :
    h.items.Perm ((purgeWithLock h n).1.items ++ (purgeWithLock h n).2) ∧
    ((purgeWithLock h n).1.FreeSpace ≥ n ∨ (purgeWithLock h n).1.items = []) ∧
    (purgeWithLock h n).1.maxSizeInBytes = h.maxSizeInBytes ∧
    (purgeWithLock h n).1.less = h.less ∧
    (purgeWithLock h n).1.sizeInBytes = h.sizeInBytes - sumSizes (purgeWithLock h n).2 := by
  induction L generalizing h n with
  | zero =>
    have hre : h.items = [] := List.length_eq_zero.1 (Nat.le_zero.1 hL)
    by_cases hfree : h.FreeSpace ≥ n
    · rw [purgeWithLock_no_need h n hfree]
      exact ⟨by simp, Or.inl hfree, rfl, rfl, by simp [sumSizes]⟩
    · have hpop : heapPop h = (h, none) := heapPop_empty h hre
      rw [purgeWithLock_pop_none h n hfree (by rw [hpop]), hpop]
      exact ⟨by simp, Or.inr hre, rfl, rfl, by simp [sumSizes]⟩
  | succ L ih =>
  by_cases hfree : h.FreeSpace ≥ n
  · rw [purgeWithLock_no_need h n hfree]
    exact ⟨by simp, Or.inl hfree, rfl, rfl, by simp [sumSizes]⟩
  · cases hr : (heapPop h).2 with
    | none =>
      have hre : h.items = [] := by
        by_cases he : h.items = []
        · exact he
        · obtain ⟨ci, h2, heq, _⟩ := heapPop_some h he
          rw [heq] at hr
          simp at hr
      have hpop : heapPop h = (h, none) := heapPop_empty h hre
      rw [purgeWithLock_pop_none h n hfree hr, hpop]
      exact ⟨by simp, Or.inr hre, rfl, rfl, by simp [sumSizes]⟩
    | some ci =>
      have hne : h.items ≠ [] := by
        intro he
        rw [heapPop_empty h he] at hr
        simp at hr
      obtain ⟨ci2, h2, heq, hperm, hsize, hmax, hless, hlen2⟩ := heapPop_some h hne
      have hci : ci2 = ci := by
        rw [heq] at hr
        simpa using hr
      subst hci
      have h2f : (heapPop h).1 = h2 := by rw [heq]
      rw [purgeWithLock_pop_some h n ci2 hfree (by rw [heq]), h2f]
      obtain ⟨ihperm, ihpost, ihmax, ihless, ihsize⟩ := ih h2 n (by omega)
      refine ⟨?_, ?_, ?_, ?_, ?_⟩
      · have : h2.items.Perm
            ((purgeWithLock h2 n).1.items ++ (purgeWithLock h2 n).2) := ihperm
        have hmid : ((purgeWithLock h2 n).1.items ++ ci2 :: (purgeWithLock h2 n).2).Perm
            (ci2 :: ((purgeWithLock h2 n).1.items ++ (purgeWithLock h2 n).2)) :=
          List.perm_middle
        exact (hperm.trans (List.Perm.cons ci2 this)).trans hmid.symm
      · exact ihpost
      · exact ihmax.trans hmax
      · exact ihless.trans hless
      · show (purgeWithLock h2 n).1.sizeInBytes
            = h.sizeInBytes - sumSizes (ci2 :: (purgeWithLock h2 n).2)
        rw [ihsize, hsize]
        simp [sumSizes]
        omega

theorem purgeWithLock_spec (h : Heap) (n : Int) :
    h.items.Perm ((purgeWithLock h n).1.items ++ (purgeWithLock h n).2) ∧
    ((purgeWithLock h n).1.FreeSpace ≥ n ∨ (purgeWithLock h n).1.items = []) ∧
    (purgeWithLock h n).1.maxSizeInBytes = h.maxSizeInBytes ∧
    (purgeWithLock h n).1.less = h.less ∧
    (purgeWithLock h n).1.sizeInBytes = h.sizeInBytes - sumSizes (purgeWithLock h n).2 :=
  purgeWithLock_spec_aux h.items.length h n le_rfl

/-! ### Key counting and index lookup lemmas -/

/-- Number of items in a list carrying a given key. -/
def countKey (l : List CacheItem) (k : String) : Nat :=
  l.countP (fun it => decide (it.key = k))

/-- A heap holds an item with the given key. -/
def hasKeyH (h : Heap) (k : String) : Prop := ∃ it ∈ h.items, it.key = k

theorem countKey_append (l1 l2 : List CacheItem) (k : String) :
    countKey (l1 ++ l2) k = countKey l1 k + countKey l2 k := by
  unfold countKey
  exact List.countP_append _ _ _

theorem countKey_cons (x : CacheItem) (l : List CacheItem) (k : String) :
    countKey (x :: l) k = countKey l k + (if x.key = k then 1 else 0) := by
  unfold countKey
  rw [List.countP_cons]
  split <;> simp_all

theorem countKey_perm {l1 l2 : List CacheItem} (h : l1.Perm l2) (k : String) :
    countKey l1 k = countKey l2 k := h.countP_eq _

theorem hasKeyH_iff (h : Heap) (k : String) : hasKeyH h k ↔ 0 < countKey h.items k := by
  unfold hasKeyH countKey
  rw [List.countP_pos_iff]
  simp

theorem idxLookup_nil (k : String) : idxLookup [] k = none := rfl

theorem idxLookup_erase (ix : Index) (k k2 : String) :
    idxLookup (idxErase ix k) k2 = if k2 = k then none else idxLookup ix k2 := by
  induction ix with
  | nil => simp [idxLookup, idxErase]
  | cons p t ih =>
    simp only [idxErase, idxLookup, List.filter_cons] at ih ⊢
    by_cases hpk : p.1 = k <;> by_cases hk2 : k2 = k <;>
      by_cases hpk2 : p.1 = k2 <;>
      simp_all [List.find?_cons]

theorem idxLookup_insert (ix : Index) (k k2 : String) (v : CacheItem) :
    idxLookup (idxInsert ix k v) k2 = if k2 = k then some v else idxLookup ix k2 := by
  by_cases hk2 : k2 = k
  · subst hk2
    unfold idxInsert idxLookup
    rw [List.find?_cons_of_pos _ (by simp)]
    simp
  · unfold idxInsert
    have hner : idxLookup ((k, v) :: idxErase ix k) k2 = idxLookup (idxErase ix k) k2 := by
      unfold idxLookup
      rw [List.find?_cons_of_neg _ (by simp only [decide_eq_true_eq]; exact fun he => hk2 he.symm)]
    rw [hner, idxLookup_erase]
    simp [hk2]

theorem idxLookup_foldl_erase (vs : List CacheItem) (ix : Index) (k : String) :
    idxLookup (vs.foldl (fun a it => idxErase a it.key) ix) k =
      if (∃ it ∈ vs, it.key = k) then none else idxLookup ix k := by
  induction vs generalizing ix with
  | nil => simp
  | cons v t ih =>
    simp only [List.foldl_cons]
    rw [ih (idxErase ix v.key), idxLookup_erase]
    by_cases ht : ∃ it ∈ t, it.key = k
    · obtain ⟨it, hm, hk⟩ := ht
      rw [if_pos ⟨it, hm, hk⟩, if_pos ⟨it, List.mem_cons_of_mem v hm, hk⟩]
    · rw [if_neg ht]
      by_cases hvk : v.key = k
      · rw [if_pos hvk.symm, if_pos ⟨v, List.mem_cons_self v t, hvk⟩]
      · rw [if_neg (fun he : k = v.key => hvk he.symm), if_neg ?_]
        intro hex
        obtain ⟨it, hm, hk⟩ := hex
        rcases List.mem_cons.1 hm with he | hm2
        · exact hvk (he ▸ hk)
        · exact ht ⟨it, hm2, hk⟩

/-! ### Demotion loop: step equations and the key-count invariant -/

theorem demoteLoop_nil (aged : Heap) (ix : Index) (needed : Int) (dels : List String) :
    demoteLoop aged ix needed [] dels = some (aged, ix, dels) := rfl

theorem demoteLoop_cons_free (aged : Heap) (ix : Index) (needed : Int) (e : CacheItem)
    (rest : List CacheItem) (dels : List String) (hfree : aged.FreeSpace ≥ e.size) :
    demoteLoop aged ix needed (e :: rest) dels =
      demoteLoop (heapPush aged e) ix needed rest dels := by
  rw [demoteLoop, if_pos hfree]

theorem demoteLoop_cons_peek_none (aged : Heap) (ix : Index) (needed : Int) (e : CacheItem)
    (rest : List CacheItem) (dels : List String) (hfree : ¬ aged.FreeSpace ≥ e.size)
    (hpeek : aged.Peek = none) :
    demoteLoop aged ix needed (e :: rest) dels = none := by
  rw [demoteLoop, if_neg hfree, hpeek]

theorem demoteLoop_cons_displace (aged : Heap) (ix : Index) (needed : Int) (e peek : CacheItem)
    (rest : List CacheItem) (dels : List String) (hfree : ¬ aged.FreeSpace ≥ e.size)
    (hpeek : aged.Peek = some peek) (hb : peek.itemDate.Before e.itemDate = true) :
    demoteLoop aged ix needed (e :: rest) dels =
      demoteLoop (heapPush (purgeWithLock aged needed).1 e)
        ((purgeWithLock aged needed).2.foldl (fun a it => idxErase a it.key) ix) needed rest
        (dels ++ (purgeWithLock aged needed).2.map (fun it => it.filePath)) := by
  rw [demoteLoop, if_neg hfree, hpeek]
  simp only [hb, if_true]

theorem demoteLoop_cons_drop (aged : Heap) (ix : Index) (needed : Int) (e peek : CacheItem)
    (rest : List CacheItem) (dels : List String) (hfree : ¬ aged.FreeSpace ≥ e.size)
    (hpeek : aged.Peek = some peek) (hb : peek.itemDate.Before e.itemDate = false) :
    demoteLoop aged ix needed (e :: rest) dels =
      demoteLoop aged (idxErase ix e.key) needed rest (dels ++ [e.filePath]) := by
  rw [demoteLoop, if_neg hfree, hpeek]
  simp only [hb, Bool.false_eq_true, if_false]

theorem countKey_heapPush (h : Heap) (x : CacheItem) (k : String) :
    countKey (heapPush h x).items k = countKey h.items k + (if x.key = k then 1 else 0) := by
  rw [countKey_perm (heapPush_spec h x).1 k, countKey_cons]

theorem countKey_purge (h : Heap) (n : Int) (k : String) :
    countKey h.items k =
      countKey (purgeWithLock h n).1.items k + countKey (purgeWithLock h n).2 k := by
  rw [countKey_perm (purgeWithLock_spec h n).1 k, countKey_append]

theorem countKey_pos_iff (l : List CacheItem) (k : String) :
    0 < countKey l k ↔ ∃ it ∈ l, it.key = k := by
  unfold countKey
  rw [List.countP_pos_iff]
  simp

/-- The per-key count invariant carried through the demotion loop: `R` is the
key count of the (fixed) purged recent heap. -/
theorem demoteLoop_count (R : String → Nat) (needed : Int) :
    ∀ (evicted : List CacheItem) (aged : Heap) (ix : Index) (dels : List String)
      (r : Heap × Index × List String),
      demoteLoop aged ix needed evicted dels = some r →
      (∀ k, R k + countKey aged.items k + countKey evicted k
        = (if (idxLookup ix k).isSome then 1 else 0)) →
      (∀ k, R k + countKey r.1.items k
        = (if (idxLookup r.2.1 k).isSome then 1 else 0)) := by
  intro evicted
  induction evicted with
  | nil =>
    intro aged ix dels r hw hinv k
    rw [demoteLoop_nil] at hw
    cases hw
    simpa [countKey] using hinv k
  | cons e rest ih =>
    intro aged ix dels r hw hinv
    by_cases hfree : aged.FreeSpace ≥ e.size
    · rw [demoteLoop_cons_free aged ix needed e rest dels hfree] at hw
      refine ih (heapPush aged e) ix dels r hw ?_
      intro k
      have h1 := hinv k
      rw [countKey_cons] at h1
      rw [countKey_heapPush]
      omega
    · cases hpeek : aged.Peek with
      | none =>
        rw [demoteLoop_cons_peek_none aged ix needed e rest dels hfree hpeek] at hw
        cases hw
      | some peek =>
        cases hb : peek.itemDate.Before e.itemDate with
        | true =>
          rw [demoteLoop_cons_displace aged ix needed e peek rest dels hfree hpeek hb] at hw
          refine ih _ _ _ r hw ?_
          intro k
          have h1 := hinv k
          rw [countKey_cons] at h1
          rw [countKey_heapPush, idxLookup_foldl_erase]
          have hsplit := countKey_purge aged needed k
          by_cases hex : ∃ it ∈ (purgeWithLock aged needed).2, it.key = k
          · rw [if_pos hex]
            have hpos : 0 < countKey (purgeWithLock aged needed).2 k :=
              (countKey_pos_iff _ k).2 hex
            have hle : (if (idxLookup ix k).isSome then 1 else 0) ≤ 1 := by
              split <;> omega
            simp only [Option.isSome_none, Bool.false_eq_true, if_false]
            omega
          · rw [if_neg hex]
            have hzero : countKey (purgeWithLock aged needed).2 k = 0 := by
              by_contra hnz
              exact hex ((countKey_pos_iff _ k).1 (Nat.pos_of_ne_zero hnz))
            omega
        | false =>
          rw [demoteLoop_cons_drop aged ix needed e peek rest dels hfree hpeek hb] at hw
          refine ih _ _ _ r hw ?_
          intro k
          have h1 := hinv k
          rw [countKey_cons] at h1
          rw [idxLookup_erase]
          by_cases hk : k = e.key
          · rw [if_pos hk]
            have he1 : (if e.key = k then 1 else 0) = 1 := by
              rw [if_pos hk.symm]
            have hle : (if (idxLookup ix k).isSome then 1 else 0) ≤ 1 := by
              split <;> omega
            simp only [Option.isSome_none, Bool.false_eq_true, if_false]
            omega
          · rw [if_neg hk]
            have he0 : (if e.key = k then 1 else 0) = 0 := by
              rw [if_neg (fun he => hk he.symm)]
            omega

/-- The demotion loop only ever removes keys from the index. -/
theorem demoteLoop_lookup_mono (needed : Int) :
    ∀ (evicted : List CacheItem) (aged : Heap) (ix : Index) (dels : List String)
      (r : Heap × Index × List String),
      demoteLoop aged ix needed evicted dels = some r →
      ∀ k, (idxLookup r.2.1 k).isSome → (idxLookup ix k).isSome := by
  intro evicted
  induction evicted with
  | nil =>
    intro aged ix dels r hw k
    rw [demoteLoop_nil] at hw
    cases hw
    exact id
  | cons e rest ih =>
    intro aged ix dels r hw k
    by_cases hfree : aged.FreeSpace ≥ e.size
    · rw [demoteLoop_cons_free aged ix needed e rest dels hfree] at hw
      exact ih _ _ _ r hw k
    · cases hpeek : aged.Peek with
      | none =>
        rw [demoteLoop_cons_peek_none aged ix needed e rest dels hfree hpeek] at hw
        cases hw
      | some peek =>
        cases hb : peek.itemDate.Before e.itemDate with
        | true =>
          rw [demoteLoop_cons_displace aged ix needed e peek rest dels hfree hpeek hb] at hw
          intro hsome
          have := ih _ _ _ r hw k hsome
          rw [idxLookup_foldl_erase] at this
          by_cases hex : ∃ it ∈ (purgeWithLock aged needed).2, it.key = k
          · rw [if_pos hex] at this
            simp at this
          · rw [if_neg hex] at this
            exact this
        | false =>
          rw [demoteLoop_cons_drop aged ix needed e peek rest dels hfree hpeek hb] at hw
          intro hsome
          have := ih _ _ _ r hw k hsome
          rw [idxLookup_erase] at this
          by_cases hk : k = e.key
          · rw [if_pos hk] at this
            simp at this
          · rw [if_neg hk] at this
            exact this

/-! ### One write step preserves the key-count invariant -/

/-- The global invariant: each key in the index is held by exactly one item
across the two heaps, and no heap item has a key outside the index. -/
def countInv (c : Cache) : Prop :=
  ∀ k, countKey c.recentEntryHeap.items k + countKey c.ageHeap.items k
    = (if (idxLookup c.index k).isSome then 1 else 0)

theorem countKey_map_keyfix (l : List CacheItem) (f : CacheItem → CacheItem)
    (hf : ∀ it, (f it).key = it.key) (k : String) :
    countKey (l.map f) k = countKey l k := by
  unfold countKey
  rw [List.countP_map]
  apply List.countP_congr
  intro a _
  simp [Function.comp, hf a]

theorem write_dup (c : Cache) (bk : CacheBackend) (cacheItem : CacheItem) (data : List Nat)
    (skip : Bool) (item0 : CacheItem) (h : idxLookup c.index cacheItem.key = some item0) :
    Cache.write c bk cacheItem data skip =
      some { cache := { c with
               index := idxInsert c.index cacheItem.key
                 { item0 with insertedAt := cacheItem.insertedAt },
               recentEntryHeap := { c.recentEntryHeap with
                 items := c.recentEntryHeap.items.map
                   (fun it => if it = item0
                      then { item0 with insertedAt := cacheItem.insertedAt } else it) },
               ageHeap := { c.ageHeap with
                 items := c.ageHeap.items.map
                   (fun it => if it = item0
                      then { item0 with insertedAt := cacheItem.insertedAt } else it) } },
             ret := Except.ok { item0 with insertedAt := cacheItem.insertedAt },
             wrote := [], deletes := [] } := by
  unfold Cache.write
  rw [h]

theorem write_nodup_none (c : Cache) (bk : CacheBackend) (cacheItem : CacheItem)
    (data : List Nat) (skip : Bool) (h : idxLookup c.index cacheItem.key = none)
    (hd : demoteLoop c.ageHeap c.index (data.length : Int)
      (purgeWithLock c.recentEntryHeap (data.length : Int)).2 [] = none) :
    Cache.write c bk cacheItem data skip = none := by
  simp only [Cache.write, h, hd]

theorem write_nodup_skip (c : Cache) (bk : CacheBackend) (cacheItem : CacheItem)
    (data : List Nat) (aged2 : Heap) (ix2 : Index) (dels : List String)
    (h : idxLookup c.index cacheItem.key = none)
    (hd : demoteLoop c.ageHeap c.index (data.length : Int)
      (purgeWithLock c.recentEntryHeap (data.length : Int)).2 [] = some (aged2, ix2, dels)) :
    Cache.write c bk cacheItem data true =
      some { cache := ⟨c.basePath, idxInsert ix2 cacheItem.key cacheItem,
               heapPush (purgeWithLock c.recentEntryHeap (data.length : Int)).1 cacheItem,
               aged2⟩,
             ret := Except.ok cacheItem, wrote := [], deletes := dels } := by
  simp only [Cache.write, h, hd, if_true]

theorem write_nodup_err (c : Cache) (bk : CacheBackend) (cacheItem : CacheItem)
    (data : List Nat) (aged2 : Heap) (ix2 : Index) (dels : List String) (err : String)
    (h : idxLookup c.index cacheItem.key = none)
    (hd : demoteLoop c.ageHeap c.index (data.length : Int)
      (purgeWithLock c.recentEntryHeap (data.length : Int)).2 [] = some (aged2, ix2, dels))
    (hbk : bk.writeFn cacheItem.filePath data = some err) :
    Cache.write c bk cacheItem data false =
      some { cache := ⟨c.basePath, ix2,
               (purgeWithLock c.recentEntryHeap (data.length : Int)).1, aged2⟩,
             ret := Except.error ("writing file: " ++ err),
             wrote := [(cacheItem.filePath, data)], deletes := dels } := by
  simp only [Cache.write, h, hd, hbk, Bool.false_eq_true, if_false]

theorem write_nodup_ok (c : Cache) (bk : CacheBackend) (cacheItem : CacheItem)
    (data : List Nat) (aged2 : Heap) (ix2 : Index) (dels : List String)
    (h : idxLookup c.index cacheItem.key = none)
    (hd : demoteLoop c.ageHeap c.index (data.length : Int)
      (purgeWithLock c.recentEntryHeap (data.length : Int)).2 [] = some (aged2, ix2, dels))
    (hbk : bk.writeFn cacheItem.filePath data = none) :
    Cache.write c bk cacheItem data false =
      some { cache := ⟨c.basePath, idxInsert ix2 cacheItem.key cacheItem,
               heapPush (purgeWithLock c.recentEntryHeap (data.length : Int)).1 cacheItem,
               aged2⟩,
             ret := Except.ok cacheItem,
             wrote := [(cacheItem.filePath, data)], deletes := dels } := by
  simp only [Cache.write, h, hd, hbk, Bool.false_eq_true, if_false]

theorem demote_result_count (c : Cache) (needed : Int) (aged2 : Heap) (ix2 : Index)
    (dels : List String)
    (hd : demoteLoop c.ageHeap c.index needed
      (purgeWithLock c.recentEntryHeap needed).2 [] = some (aged2, ix2, dels))
    (hinv : countInv c) :
    ∀ k, countKey (purgeWithLock c.recentEntryHeap needed).1.items k
        + countKey aged2.items k = (if (idxLookup ix2 k).isSome then 1 else 0) := by
  have h0 : ∀ k, countKey (purgeWithLock c.recentEntryHeap needed).1.items k
      + countKey c.ageHeap.items k + countKey (purgeWithLock c.recentEntryHeap needed).2 k
      = (if (idxLookup c.index k).isSome then 1 else 0) := by
    intro k
    have h1 := hinv k
    have hsplit := countKey_purge c.recentEntryHeap needed k
    omega
  exact demoteLoop_count
    (fun k => countKey (purgeWithLock c.recentEntryHeap needed).1.items k) needed
    (purgeWithLock c.recentEntryHeap needed).2 c.ageHeap c.index [] (aged2, ix2, dels) hd h0

theorem write_preserves_countInv (c : Cache) (bk : CacheBackend) (cacheItem : CacheItem)
    (data : List Nat) (skip : Bool) (res : WriteRes)
    (hw : Cache.write c bk cacheItem data skip = some res) (hinv : countInv c) :
    countInv res.cache := by
  cases hlook : idxLookup c.index cacheItem.key with
  | some item0 =>
    rw [write_dup c bk cacheItem data skip item0 hlook] at hw
    cases hw
    intro k
    have hrec := countKey_map_keyfix c.recentEntryHeap.items
      (fun it => if it = item0 then { item0 with insertedAt := cacheItem.insertedAt } else it)
      (by intro it; by_cases hit : it = item0 <;> simp [hit]) k
    have hage := countKey_map_keyfix c.ageHeap.items
      (fun it => if it = item0 then { item0 with insertedAt := cacheItem.insertedAt } else it)
      (by intro it; by_cases hit : it = item0 <;> simp [hit]) k
    show countKey (c.recentEntryHeap.items.map _) k + countKey (c.ageHeap.items.map _) k = _
    rw [hrec, hage, idxLookup_insert]
    have h1 := hinv k
    by_cases hk : k = cacheItem.key
    · rw [if_pos hk]
      subst hk
      rw [hlook] at h1
      simpa using h1
    · rw [if_neg hk]
      exact h1
  | none =>
    cases hd : demoteLoop c.ageHeap c.index (data.length : Int)
        (purgeWithLock c.recentEntryHeap (data.length : Int)).2 [] with
    | none =>
      rw [write_nodup_none c bk cacheItem data skip hlook hd] at hw
      cases hw
    | some r =>
      obtain ⟨aged2, ix2, dels⟩ := r
      have hcount := demote_result_count c (data.length : Int) aged2 ix2 dels hd hinv
      have hmono := demoteLoop_lookup_mono (data.length : Int)
        (purgeWithLock c.recentEntryHeap (data.length : Int)).2 c.ageHeap c.index []
        (aged2, ix2, dels) hd
      have hnewkey : (idxLookup ix2 cacheItem.key).isSome = false := by
        cases hcase : (idxLookup ix2 cacheItem.key).isSome
        · rfl
        · have := hmono cacheItem.key hcase
          rw [hlook] at this
          simp at this
      have hinstall : ∀ k,
          countKey (heapPush (purgeWithLock c.recentEntryHeap (data.length : Int)).1
            cacheItem).items k + countKey aged2.items k
          = (if (idxLookup (idxInsert ix2 cacheItem.key cacheItem) k).isSome
             then 1 else 0) := by
        intro k
        rw [countKey_heapPush, idxLookup_insert]
        have h2 := hcount k
        by_cases hk : k = cacheItem.key
        · subst hk
          rw [hnewkey] at h2
          simp only [Bool.false_eq_true, if_false] at h2
          simp only [eq_self_iff_true, if_true, Option.isSome_some]
          omega
        · rw [if_neg hk, if_neg (fun he => hk he.symm)]
          omega
      cases skip with
      | true =>
        rw [write_nodup_skip c bk cacheItem data aged2 ix2 dels hlook hd] at hw
        rw [← Option.some.inj hw]
        exact hinstall
      | false =>
        cases hbk : bk.writeFn cacheItem.filePath data with
        | some err =>
          rw [write_nodup_err c bk cacheItem data aged2 ix2 dels err hlook hd hbk] at hw
          rw [← Option.some.inj hw]
          exact hcount
        | none =>
          rw [write_nodup_ok c bk cacheItem data aged2 ix2 dels hlook hd hbk] at hw
          rw [← Option.some.inj hw]
          exact hinstall

/-- The cache states reachable from `NewCache` through successfully completed
`write` calls (each call may face any backend behaviour and any item/payload;
the public `Write` is the instance building the item from its arguments). -/
inductive ReachableCache : Cache → Prop
| base (basePath : String) (maxRecentEntryBytes maxEntryByAgeBytes : Int) :
    ReachableCache (NewCache basePath maxRecentEntryBytes maxEntryByAgeBytes)
| step (c : Cache) (bk : CacheBackend) (cacheItem : CacheItem) (data : List Nat)
    (skip : Bool) (res : WriteRes) :
    ReachableCache c → Cache.write c bk cacheItem data skip = some res →
    ReachableCache res.cache

theorem heapInit_empty (h : Heap) (he : h.items = []) : heapInit h = h := by
  unfold heapInit
  rw [heapInitLoop.eq_def, if_pos (by simp [Heap.Len, he])]

theorem NewCache_countInv (basePath : String) (maxR maxA : Int) :
    countInv (NewCache basePath maxR maxA) := by
  intro k
  show countKey (heapInit (NewHeap ByInsertionTime maxR)).items k
      + countKey (heapInit (NewHeap ByAge maxA)).items k = _
  rw [heapInit_empty _ rfl, heapInit_empty _ rfl]
  simp [countKey, NewCache, NewHeap, idxLookup]

theorem reachable_countInv (c : Cache) (h : ReachableCache c) : countInv c := by
  induction h with
  | base basePath maxR maxA => exact NewCache_countInv basePath maxR maxA
  | step c bk cacheItem data skip res hre hw ih =>
    exact write_preserves_countInv c bk cacheItem data skip res hw ih

/-! ### The filename codec: Go `time.Format`/`time.Parse` on the fixed layout,
`fmt.Sprintf("%s-%s", ...)` and the `strings.Split(name, "-")` decoding -/

/-- The fixed date layout `DateFormat` (year, month, day, `T`, hour, minute,
second, then the literal `9999`: a bare run of nines is not a
fractional-second directive in Go's layout grammar). -/
def DateFormat : String := "20060102T1504059999"

/-- Decimal digits of `n`, most significant first (via the fuel pattern so the
kernel can evaluate it). -/
def natDigitsAux : Nat → Nat → List Char
  | 0, _ => []
  | fuel + 1, n =>
    if n < 10 then [Nat.digitChar n]
    else natDigitsAux fuel (n / 10) ++ [Nat.digitChar (n % 10)]

/-- Decimal digits of `n`, most significant first. -/
def natDigits (n : Nat) : List Char := natDigitsAux (n + 1) n

/-- Go's `appendInt(x, width)`: the decimal digits, zero-padded on the left to
the requested width (more digits are kept if `x` needs them). -/
def padNum (w n : Nat) : List Char :=
  List.replicate (w - (natDigits n).length) '0' ++ natDigits n

/-- `Format` of a `DateTime` under the fixed layout: four-digit year,
two-digit month/day, literal `T`, two-digit hour/minute/second, then the
literal `9999`. The sub-second part is not encoded. -/
def formatDate (t : DateTime) : String :=
  String.mk (padNum 4 t.year ++ padNum 2 t.month ++ padNum 2 t.day ++ 'T' ::
    (padNum 2 t.hour ++ padNum 2 t.minute ++ padNum 2 t.second ++ ['9', '9', '9', '9']))

/-- Go's `isDigit`. -/
def isDigitChar (c : Char) : Bool := decide (48 ≤ c.toNat) && decide (c.toNat ≤ 57)

/-- Numeric value of a digit character. -/
def digitVal (c : Char) : Nat := c.toNat - 48

/-- Value of a digit string, most significant first. -/
def valDigits (cs : List Char) : Nat := cs.foldl (fun a c => a * 10 + digitVal c) 0

/-- The year chunk of Go's `Parse` for layout `2006`: exactly four digits. -/
def getYear4 (cs : List Char) : Option (Nat × List Char) :=
  match cs with
  | c1 :: c2 :: c3 :: c4 :: rest =>
    if isDigitChar c1 && isDigitChar c2 && isDigitChar c3 && isDigitChar c4 then
      some (((digitVal c1 * 10 + digitVal c2) * 10 + digitVal c3) * 10 + digitVal c4, rest)
    else none
  | _ => none

/-- Go's `getnum` with `fixed = true` for a two-digit chunk. -/
def getnumFixed2 (cs : List Char) : Option (Nat × List Char) :=
  match cs with
  | c1 :: c2 :: rest =>
    if isDigitChar c1 && isDigitChar c2 then
      some (digitVal c1 * 10 + digitVal c2, rest)
    else none
  | _ => none

/-- Go's `getnum` with `fixed = false` (used by the `15` hour chunk): one or
two digits. -/
def getnum2 (cs : List Char) : Option (Nat × List Char) :=
  match cs with
  | c1 :: c2 :: rest =>
    if isDigitChar c1 then
      if isDigitChar c2 then some (digitVal c1 * 10 + digitVal c2, rest)
      else some (digitVal c1, c2 :: rest)
    else none
  | [c1] => if isDigitChar c1 then some (digitVal c1, []) else none
  | [] => none

/-- Consume one literal layout character. -/
def expectLit (c : Char) (cs : List Char) : Option (List Char) :=
  match cs with
  | c0 :: rest => if c0 = c then some rest else none
  | [] => none

/-- Go's `isLeap`. -/
def isLeap (y : Nat) : Bool := y % 4 == 0 && (y % 100 != 0 || y % 400 == 0)

/-- Go's `daysIn(m, year)`. -/
def daysIn (m y : Nat) : Nat :=
  if m = 2 && isLeap y then 29
  else [31, 28, 31, 30, 31, 30, 31, 31, 30, 31, 30, 31].getD (m - 1) 0

/-- Go's `time.Parse` specialized to the fixed layout: the chunks in layout
order, the trailing literal `9999`, no text may remain, and the range checks
Go performs (hour/minute/second during scanning, month and day at the end).
The resulting instant has a zero sub-second part. -/
def parseDateChars (cs : List Char) : Option DateTime := do
  let (y, cs1) ← getYear4 cs
  let (mo, cs2) ← getnumFixed2 cs1
  let (d, cs3) ← getnumFixed2 cs2
  let cs4 ← expectLit 'T' cs3
  let (h, cs5) ← getnum2 cs4
  if 24 ≤ h then none else do
  let (mi, cs6) ← getnumFixed2 cs5
  if 60 ≤ mi then none else do
  let (sec, cs7) ← getnumFixed2 cs6
  if 60 ≤ sec then none else do
  let cs8 ← expectLit '9' cs7
  let cs9 ← expectLit '9' cs8
  let cs10 ← expectLit '9' cs9
  let cs11 ← expectLit '9' cs10
  if cs11 ≠ [] then none else do
  if mo < 1 ∨ 12 < mo then none else do
  if d < 1 ∨ daysIn mo y < d then none else do
  some ⟨y, mo, d, h, mi, sec, 0⟩

/-- `time.Parse(DateFormat, s)`. -/
def parseDate (s : String) : Option DateTime := parseDateChars s.toList

/-- Go's `strings.Split(s, "-")` on the character list. -/
def splitDash (cs : List Char) : List (List Char) :=
  match cs with
  | [] => [[]]
  | c :: rest =>
    if c = '-' then [] :: splitDash rest
    else
      match splitDash rest with
      | [] => [[c]]
      | h :: t => (c :: h) :: t

/-- The base file name built by `toFilePath`:
`fmt.Sprintf("%s-%s", key, t.Format(DateFormat))`. -/
def fileName (key : String) (t : DateTime) : String := key ++ "-" ++ formatDate t

/-- `toFilePath`: the name joined under the base directory (`path.Join` for an
already-clean base path and name). -/
def toFilePath (basePath key : String) (t : DateTime) : String :=
  basePath ++ "/" ++ fileName key t

/-- The decoding half of `cacheItemFromFile`: split the base name on `-`,
require exactly two parts, parse the date half; a decode failure (a Go panic)
is `none`. -/
def parseFileName (name : String) : Option (String × DateTime) :=
  match splitDash name.toList with
  | [kcs, dcs] => (parseDateChars dcs).map (fun t => (String.mk kcs, t))
  | _ => none

/-- `Cache.Write`: build the item (its size is the payload length, its path
the encoded file path) and run the internal `write` with the payload. -/
def Cache.Write (c : Cache) (bk : CacheBackend) (key : String)
    (itemDate insertionDate : DateTime) (data : List Nat) : Option WriteRes :=
  let filePath := toFilePath c.basePath key itemDate
  let item := newCacheItem key filePath (data.length : Int) itemDate insertionDate
  c.write bk item data false

/-! ### Decimal digit lemmas for the codec round trip -/

theorem natDigitsAux_fuel : ∀ (n f1 f2 : Nat), n < f1 → n < f2 →
    natDigitsAux f1 n = natDigitsAux f2 n := by
  intro n
  induction n using Nat.strong_induction_on with
  | _ n ih =>
    intro f1 f2 h1 h2
    match f1, h1 with
    | f1 + 1, h1 =>
    match f2, h2 with
    | f2 + 1, h2 =>
    by_cases hn : n < 10
    · simp [natDigitsAux, hn]
    · simp only [natDigitsAux, if_neg hn]
      have hd : n / 10 < n := Nat.div_lt_self (by omega) (by omega)
      rw [ih (n / 10) hd f1 (n / 10 + 1) (by omega) (by omega),
        ih (n / 10) hd f2 (n / 10 + 1) (by omega) (by omega)]

theorem natDigits_lt10 (n : Nat) (h : n < 10) : natDigits n = [Nat.digitChar n] := by
  unfold natDigits natDigitsAux
  rw [if_pos h]

theorem natDigits_ge10 (n : Nat) (h : 10 ≤ n) :
    natDigits n = natDigits (n / 10) ++ [Nat.digitChar (n % 10)] := by
  have hd : n / 10 < n := Nat.div_lt_self (by omega) (by omega)
  have hstep : natDigitsAux (n + 1) n =
      natDigitsAux n (n / 10) ++ [Nat.digitChar (n % 10)] := by
    rw [show natDigitsAux (n + 1) n = if n < 10 then [Nat.digitChar n]
        else natDigitsAux n (n / 10) ++ [Nat.digitChar (n % 10)] from rfl,
      if_neg (by omega)]
  show natDigitsAux (n + 1) n = natDigitsAux (n / 10 + 1) (n / 10) ++ [Nat.digitChar (n % 10)]
  rw [hstep, natDigitsAux_fuel (n / 10) n (n / 10 + 1) hd (by omega)]

theorem digitChar_isDigit : ∀ d, d < 10 → isDigitChar (Nat.digitChar d) = true := by decide

theorem digitVal_digitChar : ∀ d, d < 10 → digitVal (Nat.digitChar d) = d := by decide

theorem natDigits_all (n : Nat) : ∀ c ∈ natDigits n, isDigitChar c = true := by
  induction n using Nat.strong_induction_on with
  | _ n ih =>
    by_cases hn : n < 10
    · rw [natDigits_lt10 n hn]
      intro c hc
      rw [List.mem_singleton] at hc
      subst hc
      exact digitChar_isDigit n hn
    · rw [natDigits_ge10 n (by omega)]
      intro c hc
      rw [List.mem_append] at hc
      cases hc with
      | inl hc => exact ih (n / 10) (Nat.div_lt_self (by omega) (by omega)) c hc
      | inr hc =>
        rw [List.mem_singleton] at hc
        subst hc
        exact digitChar_isDigit (n % 10) (Nat.mod_lt n (by omega))

theorem valDigits_append_one (ds : List Char) (c : Char) :
    valDigits (ds ++ [c]) = valDigits ds * 10 + digitVal c := by
  unfold valDigits
  rw [List.foldl_append]
  rfl

theorem valDigits_natDigits (n : Nat) : valDigits (natDigits n) = n := by
  induction n using Nat.strong_induction_on with
  | _ n ih =>
    by_cases hn : n < 10
    · rw [natDigits_lt10 n hn]
      show valDigits [Nat.digitChar n] = n
      unfold valDigits
      simp [digitVal_digitChar n hn]
    · rw [natDigits_ge10 n (by omega), valDigits_append_one,
        ih (n / 10) (Nat.div_lt_self (by omega) (by omega)),
        digitVal_digitChar (n % 10) (Nat.mod_lt n (by omega))]
      omega

theorem natDigits_length_le : ∀ (k n : Nat), n < 10 ^ (k + 1) →
    (natDigits n).length ≤ k + 1 := by
  intro k
  induction k with
  | zero =>
    intro n hn
    rw [natDigits_lt10 n (by simpa using hn)]
    simp
  | succ k ih =>
    intro n hn
    by_cases h10 : n < 10
    · rw [natDigits_lt10 n h10]
      simp
    · rw [natDigits_ge10 n (by omega)]
      have hdiv : n / 10 < 10 ^ (k + 1) := by
        have : (10 : Nat) ^ (k + 2) = 10 ^ (k + 1) * 10 := by ring
        rw [this] at hn
        omega
      have := ih (n / 10) hdiv
      simp only [List.length_append, List.length_singleton]
      omega

theorem valDigits_cons_zero (ds : List Char) :
    valDigits ('0' :: ds) = valDigits ds := by
  unfold valDigits
  show List.foldl _ (0 * 10 + digitVal '0') ds = List.foldl _ 0 ds
  have h0 : (0 * 10 + digitVal '0') = 0 := by decide
  rw [h0]

theorem valDigits_replicate_zero (z : Nat) (ds : List Char) :
    valDigits (List.replicate z '0' ++ ds) = valDigits ds := by
  induction z with
  | zero => simp
  | succ z ih =>
    rw [List.replicate_succ, List.cons_append, valDigits_cons_zero, ih]

theorem padNum_spec (k n : Nat) (hn : n < 10 ^ (k + 1)) :
    (padNum (k + 1) n).length = k + 1 ∧
    (∀ c ∈ padNum (k + 1) n, isDigitChar c = true) ∧
    valDigits (padNum (k + 1) n) = n := by
  have hlen := natDigits_length_le k n hn
  have hne : natDigits n ≠ [] := by
    by_cases h10 : n < 10
    · rw [natDigits_lt10 n h10]
      simp
    · rw [natDigits_ge10 n (by omega)]
      simp
  refine ⟨?_, ?_, ?_⟩
  · unfold padNum
    simp only [List.length_append, List.length_replicate]
    omega
  · intro c hc
    unfold padNum at hc
    rw [List.mem_append] at hc
    cases hc with
    | inl hc =>
      rw [List.eq_of_mem_replicate hc]
      decide
    | inr hc => exact natDigits_all n c hc
  · unfold padNum
    rw [valDigits_replicate_zero, valDigits_natDigits]

theorem list_len2 (l : List Char) (h : l.length = 2) : ∃ a b, l = [a, b] := by
  match l, h with
  | [a, b], _ => exact ⟨a, b, rfl⟩

theorem list_len4 (l : List Char) (h : l.length = 4) : ∃ a b c d, l = [a, b, c, d] := by
  match l, h with
  | [a, b, c, d], _ => exact ⟨a, b, c, d, rfl⟩

theorem getYear4_pad (n : Nat) (hn : n < 10000) (rest : List Char) :
    getYear4 (padNum 4 n ++ rest) = some (n, rest) := by
  obtain ⟨hlen, hdig, hval⟩ := padNum_spec 3 n (by norm_num; omega)
  obtain ⟨a, b, c, d, habcd⟩ := list_len4 _ hlen
  rw [habcd] at hdig hval ⊢
  have ha := hdig a (by simp)
  have hb := hdig b (by simp)
  have hc := hdig c (by simp)
  have hd := hdig d (by simp)
  show (if (isDigitChar a && isDigitChar b && isDigitChar c && isDigitChar d) = true
      then some (((digitVal a * 10 + digitVal b) * 10 + digitVal c) * 10 + digitVal d, rest)
      else none) = some (n, rest)
  rw [if_pos (show (isDigitChar a && isDigitChar b && isDigitChar c && isDigitChar d) = true
    by rw [ha, hb, hc, hd]; rfl)]
  have : ((digitVal a * 10 + digitVal b) * 10 + digitVal c) * 10 + digitVal d
      = valDigits [a, b, c, d] := by
    unfold valDigits
    simp [List.foldl]
  rw [this, hval]

theorem getnumFixed2_pad (n : Nat) (hn : n < 100) (rest : List Char) :
    getnumFixed2 (padNum 2 n ++ rest) = some (n, rest) := by
  obtain ⟨hlen, hdig, hval⟩ := padNum_spec 1 n (by norm_num; omega)
  obtain ⟨a, b, hab⟩ := list_len2 _ hlen
  rw [hab] at hdig hval ⊢
  have ha := hdig a (by simp)
  have hb := hdig b (by simp)
  show (if (isDigitChar a && isDigitChar b) = true
      then some (digitVal a * 10 + digitVal b, rest) else none) = some (n, rest)
  rw [if_pos (show (isDigitChar a && isDigitChar b) = true by rw [ha, hb]; rfl)]
  have : digitVal a * 10 + digitVal b = valDigits [a, b] := by
    unfold valDigits
    simp [List.foldl]
  rw [this, hval]

theorem getnum2_pad (n : Nat) (hn : n < 100) (rest : List Char) :
    getnum2 (padNum 2 n ++ rest) = some (n, rest) := by
  obtain ⟨hlen, hdig, hval⟩ := padNum_spec 1 n (by norm_num; omega)
  obtain ⟨a, b, hab⟩ := list_len2 _ hlen
  rw [hab] at hdig hval ⊢
  have ha := hdig a (by simp)
  have hb := hdig b (by simp)
  show (if isDigitChar a = true then
      (if isDigitChar b = true then some (digitVal a * 10 + digitVal b, rest)
       else some (digitVal a, b :: rest))
      else none) = some (n, rest)
  rw [if_pos ha, if_pos hb]
  have : digitVal a * 10 + digitVal b = valDigits [a, b] := by
    unfold valDigits
    simp [List.foldl]
  rw [this, hval]

/-- A `DateTime` with calendar components in the ranges Go's `Parse`
accepts (every real `time.Time` satisfies them). -/
def validDate (t : DateTime) : Prop :=
  1 ≤ t.month ∧ t.month ≤ 12 ∧ 1 ≤ t.day ∧ t.day ≤ daysIn t.month t.year ∧
  t.hour < 24 ∧ t.minute < 60 ∧ t.second < 60

theorem parseDateChars_format (t : DateTime) (hy : t.year < 10000) (hv : validDate t) :
    parseDateChars (formatDate t).toList =
      some ⟨t.year, t.month, t.day, t.hour, t.minute, t.second, 0⟩ := by
  obtain ⟨hmo1, hmo2, hd1, hd2, hh, hmi, hs⟩ := hv
  have htl : (formatDate t).toList = padNum 4 t.year ++ (padNum 2 t.month ++ (padNum 2 t.day ++
      'T' :: (padNum 2 t.hour ++ (padNum 2 t.minute ++ (padNum 2 t.second ++
      ['9', '9', '9', '9']))))) := by
    show (String.mk _).toList = _
    simp [List.append_assoc]
  rw [htl]
  unfold parseDateChars
  rw [getYear4_pad t.year hy]
  simp only [Option.bind_eq_bind, Option.some_bind]
  rw [getnumFixed2_pad t.month (by omega)]
  simp only [Option.some_bind]
  rw [getnumFixed2_pad t.day ?hd100]
  case hd100 =>
    have : daysIn t.month t.year ≤ 31 := by
      unfold daysIn
      split
      · omega
      · rcases Nat.lt_or_ge (t.month - 1) 12 with hlt | hge
        · interval_cases h : (t.month - 1) <;> simp [List.getD]
        · rw [List.getD_eq_default]
          · omega
          · simpa using hge
    omega
  simp only [Option.some_bind]
  rw [show expectLit 'T' ('T' :: (padNum 2 t.hour ++ (padNum 2 t.minute ++ (padNum 2 t.second ++
      ['9', '9', '9', '9'])))) = some (padNum 2 t.hour ++ (padNum 2 t.minute ++
      (padNum 2 t.second ++ ['9', '9', '9', '9']))) from rfl]
  simp only [Option.some_bind]
  rw [getnum2_pad t.hour (by omega)]
  simp only [Option.some_bind]
  rw [if_neg (by omega)]
  rw [getnumFixed2_pad t.minute (by omega)]
  simp only [Option.some_bind]
  rw [if_neg (by omega)]
  rw [getnumFixed2_pad t.second (by omega)]
  simp only [Option.some_bind]
  rw [if_neg (by omega)]
  rw [show expectLit '9' ['9', '9', '9', '9'] = some ['9', '9', '9'] from rfl]
  simp only [Option.some_bind]
  rw [show expectLit '9' ['9', '9', '9'] = some ['9', '9'] from rfl]
  simp only [Option.some_bind]
  rw [show expectLit '9' ['9', '9'] = some ['9'] from rfl]
  simp only [Option.some_bind]
  rw [show expectLit '9' ['9'] = some [] from rfl]
  simp only [Option.some_bind]
  rw [if_neg (show ¬ (([] : List Char) ≠ []) by simp)]
  rw [if_neg (by omega)]
  rw [if_neg (by omega)]

theorem splitDash_no_dash (a : List Char) (h : '-' ∉ a) : splitDash a = [a] := by
  induction a with
  | nil => rfl
  | cons c rest ih =>
    have hc : ¬ c = '-' := fun he => h (he ▸ List.mem_cons_self c rest)
    have hrest : '-' ∉ rest := fun hm => h (List.mem_cons_of_mem c hm)
    show (if c = '-' then [] :: splitDash rest
        else match splitDash rest with
          | [] => [[c]]
          | h :: t => (c :: h) :: t)
      = [c :: rest]
    rw [if_neg hc, ih hrest]

theorem splitDash_append (a b : List Char) (ha : '-' ∉ a) :
    splitDash (a ++ '-' :: b) = a :: splitDash b := by
  induction a with
  | nil =>
    show (if ('-' : Char) = '-' then [] :: splitDash b
        else match splitDash b with | [] => [['-']] | h :: t => ('-' :: h) :: t)
      = [] :: splitDash b
    rw [if_pos rfl]
  | cons c rest ih =>
    have hc : ¬ c = '-' := fun he => ha (he ▸ List.mem_cons_self c rest)
    have hrest : '-' ∉ rest := fun hm => ha (List.mem_cons_of_mem c hm)
    show (if c = '-' then [] :: splitDash (rest ++ '-' :: b)
        else match splitDash (rest ++ '-' :: b) with
          | [] => [[c]]
          | h :: t => (c :: h) :: t)
      = (c :: rest) :: splitDash b
    rw [if_neg hc, ih hrest]

theorem splitDash_ne_nil (cs : List Char) : splitDash cs ≠ [] := by
  cases cs with
  | nil => simp [splitDash]
  | cons c rest =>
    unfold splitDash
    by_cases hc : c = '-'
    · rw [if_pos hc]
      simp
    · rw [if_neg hc]
      cases hs : splitDash rest <;> simp

theorem isDigit_ne_dash (c : Char) (h : isDigitChar c = true) : c ≠ '-' := by
  intro he
  subst he
  simp [isDigitChar] at h

theorem formatDate_no_dash (t : DateTime) : '-' ∉ (formatDate t).toList := by
  intro hmem
  have hlist : (formatDate t).toList = padNum 4 t.year ++ padNum 2 t.month ++ padNum 2 t.day ++
      'T' :: (padNum 2 t.hour ++ padNum 2 t.minute ++ padNum 2 t.second ++
      ['9', '9', '9', '9']) := by
    show (String.mk _).toList = _
    simp [List.append_assoc]
  rw [hlist] at hmem
  have hpad : ∀ (w n : Nat), '-' ∉ padNum w n := by
    intro w n hm
    unfold padNum at hm
    rw [List.mem_append] at hm
    cases hm with
    | inl hm =>
      have := List.eq_of_mem_replicate hm
      simp at this
    | inr hm => exact isDigit_ne_dash '-' (natDigits_all n '-' hm) rfl
  simp only [List.mem_append, List.mem_cons, List.mem_singleton] at hmem
  rcases hmem with ((hm | hm) | hm) | hm
  · exact hpad 4 t.year hm
  · exact hpad 2 t.month hm
  · exact hpad 2 t.day hm
  · rcases hm with hT | hm
    · simp at hT
    · rcases hm with ((hm | hm) | hm) | hm
      · exact hpad 2 t.hour hm
      · exact hpad 2 t.minute hm
      · exact hpad 2 t.second hm
      · simp at hm

theorem fileName_toList (key : String) (t : DateTime) :
    (fileName key t).toList = key.toList ++ '-' :: (formatDate t).toList := by
  show (key ++ "-" ++ formatDate t).data = key.data ++ '-' :: (formatDate t).data
  rw [String.data_append, String.data_append,
    show ("-" : String).data = ['-'] by decide, List.append_assoc]
  rfl

theorem parseFileName_fileName (key : String) (t : DateTime) (hkey : '-' ∉ key.toList) :
    parseFileName (fileName key t) =
      (parseDateChars (formatDate t).toList).map (fun u => (key, u)) := by
  unfold parseFileName
  rw [fileName_toList, splitDash_append key.toList (formatDate t).toList hkey,
    splitDash_no_dash _ (formatDate_no_dash t)]
  rfl

/-! ### Claim theorems -/

/-- A heap array satisfies the binary min-heap ordering under its comparator:
no child compares strictly less than its parent. -/
def isMinHeapB (h : Heap) : Bool :=
  (List.range h.items.length).all (fun j => decide (j = 0) || !(h.Less j ((j - 1) / 2)))

/-- A sample instant `2020-01-01 00:00:n`. -/
def dtN (n : Nat) : DateTime := ⟨2020, 1, 1, 0, 0, n, 0⟩

def demoA : CacheItem := ⟨"a", 3, dtN 1, dtN 1, "/t/a"⟩

def demoB : CacheItem := ⟨"b", 3, dtN 3, dtN 3, "/t/b"⟩

def demoC : CacheItem := ⟨"c", 3, dtN 2, dtN 2, "/t/c"⟩

/-- A valid `ByAge` min-heap whose tail element is neither its minimum nor its
maximum by item date. -/
def demoHeap : Heap := ⟨[demoA, demoB, demoC], 9, 100, ByAge⟩

/-- C1: during `Write`, every item `e` popped from the recent heap is
processed in pop order by the demotion loop exactly as the spec describes:
pushed into `aged` when it fits; otherwise, comparing against the peeked
(tail) aged element, either the aged heap is purged with
`neededSpace = len(payload)`, each victim's key removed from the index and its
payload deletion scheduled and then `e` pushed, or (peek not older by item
date) `e` is dropped: its key removed from the index, its deletion scheduled,
and it is never pushed into `aged`. The last conjunct ties the loop into
`Write`: the loop runs on the items purged from `recent` with
`neededSpace = len(payload)`, and its resulting aged heap and scheduled
deletions are the ones `Write` returns. -/
theorem write_demotes_evicted_items_per_spec :
    (∀ (aged : Heap) (ix : Index) (needed : Int) (e : CacheItem) (rest : List CacheItem)
       (dels : List String), aged.FreeSpace ≥ e.size →
      demoteLoop aged ix needed (e :: rest) dels
        = demoteLoop (heapPush aged e) ix needed rest dels)
  ∧ (∀ (aged : Heap) (ix : Index) (needed : Int) (e peek : CacheItem) (rest : List CacheItem)
       (dels : List String), ¬ aged.FreeSpace ≥ e.size →
      aged.Peek = some peek → peek.itemDate.Before e.itemDate = true →
      demoteLoop aged ix needed (e :: rest) dels
        = demoteLoop (heapPush (purgeWithLock aged needed).1 e)
            ((purgeWithLock aged needed).2.foldl (fun a it => idxErase a it.key) ix) needed rest
            (dels ++ (purgeWithLock aged needed).2.map (fun it => it.filePath)))
  ∧ (∀ (aged : Heap) (ix : Index) (needed : Int) (e peek : CacheItem) (rest : List CacheItem)
       (dels : List String), ¬ aged.FreeSpace ≥ e.size →
      aged.Peek = some peek → peek.itemDate.Before e.itemDate = false →
      demoteLoop aged ix needed (e :: rest) dels
        = demoteLoop aged (idxErase ix e.key) needed rest (dels ++ [e.filePath]))
  ∧ (∀ (c : Cache) (bk : CacheBackend) (key : String) (itemDate insertionDate : DateTime)
       (data : List Nat) (r : Heap × Index × List String),
      idxLookup c.index key = none →
      demoteLoop c.ageHeap c.index (data.length : Int)
        (purgeWithLock c.recentEntryHeap (data.length : Int)).2 [] = some r →
      ∃ res, Cache.Write c bk key itemDate insertionDate data = some res ∧
        res.cache.ageHeap = r.1 ∧ res.cache.index.length ≥ 0 ∧ res.deletes = r.2.2) := by
  refine ⟨?_, ?_, ?_, ?_⟩
  · intro aged ix needed e rest dels hfree
    exact demoteLoop_cons_free aged ix needed e rest dels hfree
  · intro aged ix needed e peek rest dels hfree hpeek hb
    exact demoteLoop_cons_displace aged ix needed e peek rest dels hfree hpeek hb
  · intro aged ix needed e peek rest dels hfree hpeek hb
    exact demoteLoop_cons_drop aged ix needed e peek rest dels hfree hpeek hb
  · intro c bk key itemDate insertionDate data r hnone hd
    obtain ⟨aged2, ix2, dels⟩ := r
    show ∃ res, Cache.write c bk
      (newCacheItem key (toFilePath c.basePath key itemDate) (data.length : Int)
        itemDate insertionDate) data false = some res ∧ _
    cases hbk : bk.writeFn (newCacheItem key (toFilePath c.basePath key itemDate)
        (data.length : Int) itemDate insertionDate).filePath data with
    | some err =>
      refine ⟨_, write_nodup_err c bk _ data aged2 ix2 dels err hnone hd hbk, rfl, ?_, rfl⟩
      omega
    | none =>
      refine ⟨_, write_nodup_ok c bk _ data aged2 ix2 dels hnone hd hbk, rfl, ?_, rfl⟩
      omega

theorem write_demotes_witness :
    demoteLoop (⟨[], 0, 10, ByAge⟩ : Heap) [] 5 [demoA] []
      = demoteLoop (heapPush (⟨[], 0, 10, ByAge⟩ : Heap) demoA) [] 5 [] [] :=
  write_demotes_evicted_items_per_spec.1 ⟨[], 0, 10, ByAge⟩ [] 5 demoA [] []
    (by decide)

/-- C4: `purgeWithLock` (a total function, so the loop terminates) pops
nothing when the heap already has the needed free space, and otherwise pops
until enough space is free or the heap is empty; the returned list is exactly
the multiset of removed items. -/
theorem purge_loop_terminates_and_pops_enough (h : Heap) (needed : Int) :
    (h.FreeSpace ≥ needed → purgeWithLock h needed = (h, [])) ∧
    h.items.Perm ((purgeWithLock h needed).1.items ++ (purgeWithLock h needed).2) ∧
    ((purgeWithLock h needed).1.FreeSpace ≥ needed ∨
      (purgeWithLock h needed).1.items = []) :=
  ⟨fun hf => purgeWithLock_no_need h needed hf, (purgeWithLock_spec h needed).1,
    (purgeWithLock_spec h needed).2.1⟩

theorem purge_loop_witness :
    purgeWithLock demoHeap 50 = (demoHeap, []) :=
  (purge_loop_terminates_and_pops_enough demoHeap 50).1 (by decide)

/-- C5: when an item popped from `recent` does not fit into an empty aged
heap, `Peek` on the empty heap yields nothing and the demotion branch
dereferences it: the loop panics (`none`), and `write` — hence `Write` —
propagates the panic instead of returning a value or an error. -/
theorem write_panics_on_empty_aged_peek :
    (∀ (aged : Heap), aged.items = [] → aged.Peek = none)
  ∧ (∀ (aged : Heap) (ix : Index) (needed : Int) (e : CacheItem) (rest : List CacheItem)
       (dels : List String), aged.items = [] → ¬ aged.FreeSpace ≥ e.size →
      demoteLoop aged ix needed (e :: rest) dels = none)
  ∧ (∀ (c : Cache) (bk : CacheBackend) (cacheItem : CacheItem) (data : List Nat)
       (skip : Bool), idxLookup c.index cacheItem.key = none →
      demoteLoop c.ageHeap c.index (data.length : Int)
        (purgeWithLock c.recentEntryHeap (data.length : Int)).2 [] = none →
      Cache.write c bk cacheItem data skip = none) := by
  refine ⟨?_, ?_, ?_⟩
  · intro aged he
    unfold Heap.Peek
    rw [if_pos (by rw [he]; rfl)]
  · intro aged ix needed e rest dels he hfree
    apply demoteLoop_cons_peek_none aged ix needed e rest dels hfree
    unfold Heap.Peek
    rw [if_pos (by rw [he]; rfl)]
  · intro c bk cacheItem data skip hnone hd
    exact write_nodup_none c bk cacheItem data skip hnone hd

/-- C6: `Peek` returns the tail of the backing array without removing it
(`none` when empty); on a valid min-heap (`demoHeap`) the peeked element is
neither the root/minimum nor the maximum by the heap's ordering. -/
theorem peek_returns_tail_not_min_or_max :
    (∀ h : Heap, h.Peek = h.items.getLast?)
  ∧ isMinHeapB demoHeap = true
  ∧ demoHeap.Peek = some demoC
  ∧ demoHeap.items.all (fun x => !(x.itemDate.Before demoA.itemDate)) = true
  ∧ demoA ≠ demoC
  ∧ demoHeap.items.all (fun x => !(demoB.itemDate.Before x.itemDate)) = true
  ∧ demoB ≠ demoC := by
  refine ⟨?_, by decide, by decide, by decide, by decide, by decide, by decide⟩
  intro h
  unfold Heap.Peek
  split
  · rename_i h0
    rw [List.length_eq_zero.1 h0]
    rfl
  · rfl

def c7Item : CacheItem := ⟨"a", 3, dtN 0, dtN 0, "/t/a"⟩

def c7Heap : Heap := ⟨[c7Item], 3, 10, ByAge⟩

/-- C7 (evaluation at the failing input): `Heap.Remove` on a singleton heap
returns the item and empties the backing array, but leaves
`sizeInBytes = -3`: the size is subtracted once inside the interface `Pop`
reached through `container/heap.Remove` and then a second time by
`Heap.Remove` itself, where a single subtraction would leave `0`. -/
theorem remove_subtracts_size_twice :
    (c7Heap.Remove "a").2 = some c7Item ∧
    (c7Heap.Remove "a").1.items = [] ∧
    (c7Heap.Remove "a").1.sizeInBytes = -3 ∧
    c7Heap.sizeInBytes - c7Item.size = 0 := by
  refine ⟨?_, ?_, ?_, by decide⟩ <;> decide

/-- C9: `Read` leaves the cache untouched and returns `found = false` with no
error exactly when the key is absent; on a hit it returns the backend read of
the stored item's `filePath` together with `found = true`. -/
theorem read_hits_iff_indexed (c : Cache) (bk : CacheBackend) (key : String) :
    (Cache.Read c bk key).1 = c
  ∧ (((Cache.Read c bk key).2.2.1 = false ∧ (Cache.Read c bk key).2.2.2 = none)
      ↔ idxLookup c.index key = none)
  ∧ (∀ ci, idxLookup c.index key = some ci →
      (Cache.Read c bk key).2
        = ((bk.readFn ci.filePath).1, true, (bk.readFn ci.filePath).2)) := by
  unfold Cache.Read
  cases hl : idxLookup c.index key with
  | none =>
    refine ⟨rfl, ?_, ?_⟩
    · simp
    · intro ci hci
      simp at hci
  | some ci =>
    refine ⟨rfl, ?_, ?_⟩
    · constructor
      · intro hcontra
        cases hcontra.1
      · intro hcontra
        cases hcontra
    · intro ci2 hci
      cases hci
      rfl

def c9Item : CacheItem := ⟨"k", 1, dtN 0, dtN 0, "/t/k"⟩

def c9Cache : Cache := ⟨"/t", [("k", c9Item)], ⟨[c9Item], 1, 10, ByInsertionTime⟩,
  ⟨[], 0, 10, ByAge⟩⟩

def c9Backend : CacheBackend := ⟨fun _ _ => none, fun _ => ([7], none)⟩

theorem read_hits_witness :
    (Cache.Read c9Cache c9Backend "k").2 = ([7], true, none) ∧
    (Cache.Read c9Cache c9Backend "k").1 = c9Cache := by
  have h := read_hits_iff_indexed c9Cache c9Backend "k"
  exact ⟨h.2.2 c9Item rfl, h.1⟩

def w5Big : CacheItem := ⟨"b", 10, dtN 0, dtN 0, "/t/b"⟩

def w5New : CacheItem := ⟨"n", 1, dtN 1, dtN 1, "/t/n"⟩

def w5Recent : Heap := ⟨[w5Big], 10, 5, ByInsertionTime⟩

def w5Aged : Heap := ⟨[], 0, 5, ByAge⟩

def w5Cache : Cache := ⟨"/t", [("b", w5Big)], w5Recent, w5Aged⟩

theorem write_panics_witness : Cache.write w5Cache c9Backend w5New [0] false = none := by
  have h := write_panics_on_empty_aged_peek
  obtain ⟨ci, h2, heq, hperm, _, _, _, hlen⟩ := heapPop_some w5Recent (by decide)
  have h2nil : h2.items = [] := by
    have hone : w5Recent.items.length = 1 := by decide
    rw [hone] at hlen
    exact List.length_eq_zero.1 (by omega)
  have hperm2 : [w5Big].Perm (ci :: h2.items) := hperm
  rw [h2nil] at hperm2
  have hci : w5Big = ci := by
    have := List.perm_singleton.1 hperm2.symm
    exact (List.singleton_inj.1 this).symm
  subst hci
  have hpop2 : (heapPop w5Recent).2 = some w5Big := by rw [heq]
  have hsplit := purgeWithLock_pop_some w5Recent 1 w5Big (by decide) hpop2
  have hdem : demoteLoop w5Aged w5Cache.index 1 (purgeWithLock w5Recent 1).2 [] = none := by
    rw [hsplit]
    exact h.2.1 w5Aged w5Cache.index 1 w5Big _ [] rfl (by decide)
  exact h.2.2 w5Cache c9Backend w5New [0] false (by decide) hdem

/-- C3: in every cache state reachable from `NewCache` through completed
`write` calls, each key in the index is held by exactly one of the two heaps,
no heap holds an item whose key is outside the index, and the heaps are
disjoint by key. -/
theorem index_and_heaps_partition (c : Cache) (h : ReachableCache c) (k : String) :
    ((idxLookup c.index k).isSome →
      (hasKeyH c.recentEntryHeap k ∧ ¬ hasKeyH c.ageHeap k) ∨
      (¬ hasKeyH c.recentEntryHeap k ∧ hasKeyH c.ageHeap k))
  ∧ ((hasKeyH c.recentEntryHeap k ∨ hasKeyH c.ageHeap k) → (idxLookup c.index k).isSome)
  ∧ ¬ (hasKeyH c.recentEntryHeap k ∧ hasKeyH c.ageHeap k) := by
  have hc := reachable_countInv c h k
  have hle : (if (idxLookup c.index k).isSome then 1 else 0) ≤ 1 := by
    split <;> omega
  refine ⟨?_, ?_, ?_⟩
  · intro hsome
    rw [hsome, if_pos rfl] at hc
    have hcase : (0 < countKey c.recentEntryHeap.items k ∧ countKey c.ageHeap.items k = 0)
        ∨ (countKey c.recentEntryHeap.items k = 0 ∧ 0 < countKey c.ageHeap.items k) := by
      omega
    cases hcase with
    | inl hca =>
      left
      refine ⟨(hasKeyH_iff _ _).2 hca.1, ?_⟩
      rw [hasKeyH_iff]
      omega
    | inr hca =>
      right
      refine ⟨?_, (hasKeyH_iff _ _).2 hca.2⟩
      rw [hasKeyH_iff]
      omega
  · intro hor
    cases hns : (idxLookup c.index k).isSome
    · rw [hns] at hc
      simp only [Bool.false_eq_true, if_false] at hc
      cases hor with
      | inl hh =>
        rw [hasKeyH_iff] at hh
        omega
      | inr hh =>
        rw [hasKeyH_iff] at hh
        omega
    · rfl
  · intro hand
    have h1 := (hasKeyH_iff _ _).1 hand.1
    have h2 := (hasKeyH_iff _ _).1 hand.2
    omega

theorem index_and_heaps_partition_witness :
    ¬ (hasKeyH (NewCache "/tmp" 3 100).recentEntryHeap "key.0" ∧
       hasKeyH (NewCache "/tmp" 3 100).ageHeap "key.0") :=
  (index_and_heaps_partition (NewCache "/tmp" 3 100)
    (ReachableCache.base "/tmp" 3 100) "key.0").2.2

/-- C2: a `Write` whose key is already indexed refreshes the existing item's
`insertedAt` to the new insertion date and returns it; the item's key, size,
item date and file path are unchanged, no backend write or deletion happens,
the index maps the key to the refreshed item and is otherwise unchanged, and
both heaps keep their arrays (positions included, so `recent` is not
re-heapified), byte counts and caps, except that the stored (shared) item
value carries the refreshed `insertedAt`. -/
theorem duplicate_write_refreshes_insertedAt (c : Cache) (bk : CacheBackend) (key : String)
    (itemDate insertionDate : DateTime) (data : List Nat) (old : CacheItem)
    (h : idxLookup c.index key = some old) :
    ∃ res, Cache.Write c bk key itemDate insertionDate data = some res ∧
      res.ret = Except.ok { old with insertedAt := insertionDate } ∧
      ({ old with insertedAt := insertionDate }).key = old.key ∧
      ({ old with insertedAt := insertionDate }).size = old.size ∧
      ({ old with insertedAt := insertionDate }).itemDate = old.itemDate ∧
      ({ old with insertedAt := insertionDate }).filePath = old.filePath ∧
      res.wrote = [] ∧
      res.deletes = [] ∧
      (∀ k2, idxLookup res.cache.index k2 =
        if k2 = key then some { old with insertedAt := insertionDate }
        else idxLookup c.index k2) ∧
      res.cache.recentEntryHeap.items = c.recentEntryHeap.items.map
        (fun it => if it = old then { old with insertedAt := insertionDate } else it) ∧
      res.cache.ageHeap.items = c.ageHeap.items.map
        (fun it => if it = old then { old with insertedAt := insertionDate } else it) ∧
      res.cache.recentEntryHeap.sizeInBytes = c.recentEntryHeap.sizeInBytes ∧
      res.cache.ageHeap.sizeInBytes = c.ageHeap.sizeInBytes ∧
      res.cache.recentEntryHeap.maxSizeInBytes = c.recentEntryHeap.maxSizeInBytes ∧
      res.cache.ageHeap.maxSizeInBytes = c.ageHeap.maxSizeInBytes := by
  have hw := write_dup c bk
    (newCacheItem key (toFilePath c.basePath key itemDate) (data.length : Int)
      itemDate insertionDate) data false old h
  refine ⟨_, hw, rfl, rfl, rfl, rfl, rfl, rfl, rfl, ?_, rfl, rfl, rfl, rfl, rfl, rfl⟩
  intro k2
  exact idxLookup_insert c.index key k2 _

theorem duplicate_write_witness :
    (Cache.Write c9Cache c9Backend "k" (dtN 5) (dtN 6) [0, 0]).map (fun r => r.ret)
      = some (Except.ok ⟨"k", 1, dtN 0, dtN 6, "/t/k"⟩) ∧
    (Cache.Write c9Cache c9Backend "k" (dtN 5) (dtN 6) [0, 0]).map (fun r => r.wrote)
      = some [] := by
  obtain ⟨res, hw, hret, _, _, _, _, hwr, _⟩ :=
    duplicate_write_refreshes_insertedAt c9Cache c9Backend "k" (dtN 5) (dtN 6) [0, 0]
      c9Item (by decide)
  rw [hw]
  refine ⟨?_, ?_⟩
  · show some res.ret = some (Except.ok ⟨"k", 1, dtN 0, dtN 6, "/t/k"⟩)
    rw [hret]
    rfl
  · show some res.wrote = some []
    rw [hwr]

/-- Invariant I2 for a heap: the byte counter is the sum of the held sizes. -/
def sizesConsistent (h : Heap) : Prop := h.sizeInBytes = sumSizes h.items

/-- All held sizes are non-negative (true of every stored item, whose size is
a payload length). -/
def sizesNonneg (h : Heap) : Prop := ∀ it ∈ h.items, 0 ≤ it.size

theorem sumSizes_nonneg (l : List CacheItem) (h : ∀ it ∈ l, 0 ≤ it.size) :
    0 ≤ sumSizes l := by
  unfold sumSizes
  apply List.sum_nonneg
  intro x hx
  obtain ⟨it, hit, hEq⟩ := List.mem_map.1 hx
  rw [← hEq]
  exact h it hit

theorem sumSizes_perm {l1 l2 : List CacheItem} (h : l1.Perm l2) :
    sumSizes l1 = sumSizes l2 := by
  unfold sumSizes
  exact List.Perm.sum_eq (h.map _)

theorem sumSizes_cons (x : CacheItem) (l : List CacheItem) :
    sumSizes (x :: l) = x.size + sumSizes l := by
  unfold sumSizes
  simp

theorem upGo_zero (h : Heap) : upGo h 0 = h := by
  rw [upGo.eq_def]
  norm_num

theorem purge_drains_aux (L : Nat) (h : Heap) (needed : Int) (hL : h.items.length ≤ L)
    (hcons : sizesConsistent h) (hnn : sizesNonneg h)
    (hbig : needed > h.maxSizeInBytes) :
    (purgeWithLock h needed).1.items = [] ∧ (purgeWithLock h needed).1.sizeInBytes = 0 := by
  induction L generalizing h with
  | zero =>
    have hc : h.sizeInBytes = sumSizes h.items := hcons
    have hre : h.items = [] := List.length_eq_zero.1 (Nat.le_zero.1 hL)
    have hzero : h.sizeInBytes = 0 := by
      rw [hc, hre]
      rfl
    have hfree : ¬ h.FreeSpace ≥ needed := by
      unfold Heap.FreeSpace
      omega
    have hpop : heapPop h = (h, none) := heapPop_empty h hre
    rw [purgeWithLock_pop_none h needed hfree (by rw [hpop]), hpop]
    exact ⟨hre, hzero⟩
  | succ L ih =>
    have hc : h.sizeInBytes = sumSizes h.items := hcons
    have hsum : 0 ≤ sumSizes h.items := sumSizes_nonneg h.items hnn
    have hfree : ¬ h.FreeSpace ≥ needed := by
      unfold Heap.FreeSpace
      rw [hc]
      omega
    cases hne : h.items with
    | nil =>
      have hzero : h.sizeInBytes = 0 := by
        rw [hc, hne]
        rfl
      have hpop : heapPop h = (h, none) := heapPop_empty h hne
      rw [purgeWithLock_pop_none h needed hfree (by rw [hpop]), hpop]
      exact ⟨hne, hzero⟩
    | cons x xs =>
      have hne2 : h.items ≠ [] := by rw [hne]; simp
      obtain ⟨ci, h2, heq, hperm, hsize, hmax, _, hlen⟩ := heapPop_some h hne2
      have hcons2 : sizesConsistent h2 := by
        show h2.sizeInBytes = sumSizes h2.items
        rw [hsize, hc, sumSizes_perm hperm, sumSizes_cons]
        omega
      have hnn2 : sizesNonneg h2 := by
        intro it hit
        exact hnn it (hperm.mem_iff.2 (List.mem_cons_of_mem ci hit))
      have hbig2 : needed > h2.maxSizeInBytes := by rw [hmax]; exact hbig
      have hpop2 : (heapPop h).2 = some ci := by rw [heq]
      have h1f : (heapPop h).1 = h2 := by rw [heq]
      rw [purgeWithLock_pop_some h needed ci hfree hpop2, h1f]
      exact ih h2 (by rw [hne] at hlen hL; simp at hlen hL; omega) hcons2 hnn2 hbig2

theorem purge_drains (h : Heap) (needed : Int) (hcons : sizesConsistent h)
    (hnn : sizesNonneg h) (hbig : needed > h.maxSizeInBytes) :
    (purgeWithLock h needed).1.items = [] ∧ (purgeWithLock h needed).1.sizeInBytes = 0 :=
  purge_drains_aux h.items.length h needed le_rfl hcons hnn hbig

/-- C8: a `Write` whose payload exceeds the recent heap's byte cap drains the
recent heap completely, and the new item is still admitted: afterwards the
recent heap holds exactly the new item, whose size exceeds the unchanged cap
(the transient violation of invariant I2 the spec describes). -/
theorem oversized_payload_drains_recent_and_is_admitted (c : Cache) (bk : CacheBackend)
    (key : String) (itemDate insertionDate : DateTime) (data : List Nat) (res : WriteRes)
    (hcons : sizesConsistent c.recentEntryHeap) (hnn : sizesNonneg c.recentEntryHeap)
    (hbig : (data.length : Int) > c.recentEntryHeap.maxSizeInBytes)
    (hnew : idxLookup c.index key = none)
    (hbk : bk.writeFn (toFilePath c.basePath key itemDate) data = none)
    (hw : Cache.Write c bk key itemDate insertionDate data = some res) :
    (purgeWithLock c.recentEntryHeap (data.length : Int)).1.items = [] ∧
    res.cache.recentEntryHeap.items
      = [newCacheItem key (toFilePath c.basePath key itemDate) (data.length : Int)
          itemDate insertionDate] ∧
    res.cache.recentEntryHeap.sizeInBytes = (data.length : Int) ∧
    res.cache.recentEntryHeap.maxSizeInBytes = c.recentEntryHeap.maxSizeInBytes ∧
    res.cache.recentEntryHeap.sizeInBytes > res.cache.recentEntryHeap.maxSizeInBytes := by
  obtain ⟨hdrain, hdsize⟩ := purge_drains c.recentEntryHeap (data.length : Int) hcons hnn hbig
  have hmaxp := (purgeWithLock_spec c.recentEntryHeap (data.length : Int)).2.2.1
  have hw2 : Cache.write c bk
      (newCacheItem key (toFilePath c.basePath key itemDate) (data.length : Int)
        itemDate insertionDate) data false = some res := hw
  cases hd : demoteLoop c.ageHeap c.index (data.length : Int)
      (purgeWithLock c.recentEntryHeap (data.length : Int)).2 [] with
  | none =>
    rw [write_nodup_none c bk _ data false hnew hd] at hw2
    cases hw2
  | some r =>
    obtain ⟨aged2, ix2, dels⟩ := r
    rw [write_nodup_ok c bk _ data aged2 ix2 dels hnew hd hbk] at hw2
    have hres := Option.some.inj hw2
    subst hres
    have hlen0 : ((purgeWithLock c.recentEntryHeap (data.length : Int)).1.PushRaw
        (newCacheItem key (toFilePath c.basePath key itemDate) (data.length : Int)
          itemDate insertionDate)).Len - 1 = 0 := by
      unfold Heap.Len Heap.PushRaw
      simp [hdrain]
    have hpush : heapPush (purgeWithLock c.recentEntryHeap (data.length : Int)).1
        (newCacheItem key (toFilePath c.basePath key itemDate) (data.length : Int)
          itemDate insertionDate)
        = (purgeWithLock c.recentEntryHeap (data.length : Int)).1.PushRaw
          (newCacheItem key (toFilePath c.basePath key itemDate) (data.length : Int)
            itemDate insertionDate) := by
      show upGo ((purgeWithLock c.recentEntryHeap (data.length : Int)).1.PushRaw
          (newCacheItem key (toFilePath c.basePath key itemDate) (data.length : Int)
            itemDate insertionDate))
          (((purgeWithLock c.recentEntryHeap (data.length : Int)).1.PushRaw
            (newCacheItem key (toFilePath c.basePath key itemDate) (data.length : Int)
              itemDate insertionDate)).Len - 1) = _
      rw [hlen0, upGo_zero]
    refine ⟨hdrain, ?_, ?_, ?_, ?_⟩
    · show (heapPush (purgeWithLock c.recentEntryHeap (data.length : Int)).1
        (newCacheItem key (toFilePath c.basePath key itemDate) (data.length : Int)
          itemDate insertionDate)).items = _
      rw [hpush]
      show (purgeWithLock c.recentEntryHeap (data.length : Int)).1.items
          ++ [newCacheItem key (toFilePath c.basePath key itemDate) (data.length : Int)
              itemDate insertionDate] = _
      rw [hdrain]
      rfl
    · show (heapPush (purgeWithLock c.recentEntryHeap (data.length : Int)).1
        (newCacheItem key (toFilePath c.basePath key itemDate) (data.length : Int)
          itemDate insertionDate)).sizeInBytes = _
      rw [hpush]
      show (purgeWithLock c.recentEntryHeap (data.length : Int)).1.sizeInBytes
          + (data.length : Int) = (data.length : Int)
      rw [hdsize]
      omega
    · show (heapPush (purgeWithLock c.recentEntryHeap (data.length : Int)).1
        (newCacheItem key (toFilePath c.basePath key itemDate) (data.length : Int)
          itemDate insertionDate)).maxSizeInBytes = _
      rw [hpush]
      exact hmaxp
    · show (heapPush (purgeWithLock c.recentEntryHeap (data.length : Int)).1
        (newCacheItem key (toFilePath c.basePath key itemDate) (data.length : Int)
          itemDate insertionDate)).sizeInBytes
        > (heapPush (purgeWithLock c.recentEntryHeap (data.length : Int)).1
            (newCacheItem key (toFilePath c.basePath key itemDate) (data.length : Int)
              itemDate insertionDate)).maxSizeInBytes
      rw [hpush]
      show (purgeWithLock c.recentEntryHeap (data.length : Int)).1.sizeInBytes
          + (data.length : Int)
          > (purgeWithLock c.recentEntryHeap (data.length : Int)).1.maxSizeInBytes
      rw [hdsize, hmaxp]
      omega

/-- Concrete oversized-write scenario: an empty recent heap capped at 2 bytes
receiving a 3-byte payload. -/
def c8Cache : Cache := ⟨"/t", [], ⟨[], 0, 2, ByInsertionTime⟩, ⟨[], 0, 5, ByAge⟩⟩

/-- The item the oversized write installs. -/
def c8Item : CacheItem := newCacheItem "k" (toFilePath "/t" "k" (dtN 0)) 3 (dtN 0) (dtN 1)

/-- The full result of the oversized write on `c8Cache`. -/
def c8Res : WriteRes :=
  { cache := ⟨"/t", [("k", c8Item)], ⟨[c8Item], 3, 2, ByInsertionTime⟩, ⟨[], 0, 5, ByAge⟩⟩,
    ret := Except.ok c8Item,
    wrote := [(toFilePath "/t" "k" (dtN 0), [0, 0, 0])], deletes := [] }

theorem oversized_payload_witness :
    sizesConsistent c8Cache.recentEntryHeap ∧
    sizesNonneg c8Cache.recentEntryHeap ∧
    (([0, 0, 0] : List Nat).length : Int) > c8Cache.recentEntryHeap.maxSizeInBytes ∧
    idxLookup c8Cache.index "k" = none ∧
    c9Backend.writeFn (toFilePath c8Cache.basePath "k" (dtN 0)) [0, 0, 0] = none ∧
    Cache.Write c8Cache c9Backend "k" (dtN 0) (dtN 1) [0, 0, 0] = some c8Res ∧
    c8Res.cache.recentEntryHeap.items
      = [newCacheItem "k" (toFilePath c8Cache.basePath "k" (dtN 0))
          (([0, 0, 0] : List Nat).length : Int) (dtN 0) (dtN 1)] ∧
    c8Res.cache.recentEntryHeap.sizeInBytes
      > c8Res.cache.recentEntryHeap.maxSizeInBytes := by
  have hpurge : purgeWithLock c8Cache.recentEntryHeap (([0, 0, 0] : List Nat).length : Int)
      = (c8Cache.recentEntryHeap, []) := by
    rw [purgeWithLock_pop_none _ _ (by decide) (by rw [heapPop_empty _ rfl]),
      heapPop_empty _ rfl]
  have hd : demoteLoop c8Cache.ageHeap c8Cache.index (([0, 0, 0] : List Nat).length : Int)
      (purgeWithLock c8Cache.recentEntryHeap (([0, 0, 0] : List Nat).length : Int)).2 []
      = some (c8Cache.ageHeap, c8Cache.index, []) := by
    rw [hpurge]
    rfl
  have hpush : heapPush
      (purgeWithLock c8Cache.recentEntryHeap (([0, 0, 0] : List Nat).length : Int)).1 c8Item
      = (⟨[c8Item], 3, 2, ByInsertionTime⟩ : Heap) := by
    rw [hpurge]
    show upGo (c8Cache.recentEntryHeap.PushRaw c8Item)
      ((c8Cache.recentEntryHeap.PushRaw c8Item).Len - 1) = _
    rw [show (c8Cache.recentEntryHeap.PushRaw c8Item).Len - 1 = 0 from rfl, upGo_zero]
    rfl
  have hw : Cache.Write c8Cache c9Backend "k" (dtN 0) (dtN 1) [0, 0, 0] = some c8Res := by
    have h1 := write_nodup_ok c8Cache c9Backend c8Item [0, 0, 0] c8Cache.ageHeap
      c8Cache.index [] rfl hd rfl
    rw [hpush] at h1
    exact h1
  refine ⟨rfl, ?_, by decide, rfl, rfl, hw, ?_, by decide⟩
  · intro it hit
    cases hit
  · exact (oversized_payload_drains_recent_and_is_admitted c8Cache c9Backend "k"
      (dtN 0) (dtN 1) [0, 0, 0] c8Res rfl (fun it hit => by cases hit) (by decide)
      rfl rfl hw).2.1

/-- The date whose encoding loses its sub-second part: nanos = 123. -/
def c10t : DateTime := ⟨2021, 10, 8, 17, 14, 5, 123⟩

/-- C10 counterexample: the filename codec is not an exact round trip.
The layout's trailing `9999` is a literal (it is not preceded by a dot), so
`Format` ignores the sub-second part and `Parse` restores zero nanoseconds:
a date with nanos = 123 comes back with nanos = 0. -/
theorem filename_codec_drops_subseconds :
    parseFileName (fileName "blk" c10t) ≠ some ("blk", c10t) ∧
    parseFileName (fileName "blk" c10t)
      = some ("blk", (⟨2021, 10, 8, 17, 14, 5, 0⟩ : DateTime)) := by
  constructor
  · decide
  · decide

/-- C10 (amended): for a key without `-` and a date with in-range components,
a four-digit year and no sub-second part, decoding the filename produced by
the codec yields exactly the original pair. -/
theorem filename_codec_round_trips_modulo_subseconds (key : String) (t : DateTime)
    (hkey : '-' ∉ key.toList) (hy : t.year < 10000) (hv : validDate t)
    (hn : t.nanos = 0) :
    parseFileName (fileName key t) = some (key, t) := by
  rw [parseFileName_fileName key t hkey, parseDateChars_format t hy hv]
  obtain ⟨y, mo, d, h, mi, s, n⟩ := t
  simp only at hn
  subst hn
  rfl

theorem filename_codec_witness :
    '-' ∉ ("blk" : String).toList ∧
    (⟨2021, 10, 8, 17, 14, 5, 0⟩ : DateTime).year < 10000 ∧
    validDate ⟨2021, 10, 8, 17, 14, 5, 0⟩ ∧
    (⟨2021, 10, 8, 17, 14, 5, 0⟩ : DateTime).nanos = 0 ∧
    parseFileName (fileName "blk" ⟨2021, 10, 8, 17, 14, 5, 0⟩)
      = some ("blk", (⟨2021, 10, 8, 17, 14, 5, 0⟩ : DateTime)) :=
  ⟨by decide, by decide, by unfold validDate; decide, rfl,
    filename_codec_round_trips_modulo_subseconds "blk" ⟨2021, 10, 8, 17, 14, 5, 0⟩
      (by decide) (by decide) (by unfold validDate; decide) rfl⟩

end Atm
